import Mathlib

/-!
# fynedesk: freedesktop.org application and icon lookup (`internal/fdo.go`)

A shallow embedding of `internal/fdo.go`.  The functions of the Go file read the
environment and the filesystem; here the part of the outside world they observe
is an explicit value `World`, passed as the first argument of every function.

Go strings are Lean `String`s.  The standard-library functions the file calls
(`strings.HasPrefix`, `strings.Split`, `strings.SplitAfter`, `filepath.Join`)
are written by structural recursion over the characters, following the Go
documentation, so that every definition below evaluates on concrete inputs.
-/

set_option autoImplicit false

namespace Fdo

/-! ## Go standard library -/

/-- Go `strings.HasPrefix(s, p)`. -/
def HasPrefix (s p : String) : Bool :=
  p.data.isPrefixOf s.data

/-- Pieces of `l` between occurrences of the separator `c`, separator removed. -/
def splitChars (c : Char) : List Char → List (List Char)
  | [] => [[]]
  | x :: xs =>
    if x = c then [] :: splitChars c xs
    else
      match splitChars c xs with
      | [] => [[x]]
      | h :: t => (x :: h) :: t

/-- Go `strings.Split(s, sep)` for a one-character separator: the pieces of `s`
between the separators; a string without separator (the empty string too)
gives the one-element list `[s]`. -/
def Split (s : String) (sep : Char) : List String :=
  (splitChars sep s.data).map String.mk

/-- Pieces of `l` cut after each occurrence of `c`, separator kept at the end of
its piece; the last piece is what follows the last separator. -/
def splitAfterChars (c : Char) : List Char → List (List Char)
  | [] => [[]]
  | x :: xs =>
    if x = c then [x] :: splitAfterChars c xs
    else
      match splitAfterChars c xs with
      | [] => [[x]]
      | h :: t => (x :: h) :: t

/-- Go `strings.SplitAfter(s, sep)` for a one-character separator. -/
def SplitAfter (s : String) (sep : Char) : List String :=
  (splitAfterChars sep s.data).map String.mk

/-- One step of the lexical cleaning of `filepath.Clean`, on path elements: the
stack holds the elements written so far, last one first. -/
def cleanStep (rooted : Bool) (stack : List (List Char)) (elem : List Char) :
    List (List Char) :=
  if elem = [] ∨ elem = ['.'] then stack
  else if elem = ['.', '.'] then
    match stack with
    | top :: rest => if top = ['.', '.'] then elem :: stack else rest
    | [] => if rooted then [] else [elem]
  else elem :: stack

/-- Go `filepath.Clean` (Unix): slashes collapsed, `.` elements dropped, inner
`..` elements resolved lexically, `/..` at the root replaced by `/`, and the
empty result written `.`. -/
def Clean (path : String) : String :=
  let rooted := HasPrefix path "/"
  let stack := (splitChars '/' path.data).foldl (cleanStep rooted) []
  let body := String.mk (List.intercalate ['/'] stack.reverse)
  let out := (if rooted then "/" else "") ++ body
  if out = "" then "." else out

/-- Go `filepath.Join(elem...)` (Unix): the empty elements in front are dropped,
what is left is joined with `/` and cleaned; no element left gives `""`. -/
def Join (elem : List String) : String :=
  match elem.dropWhile (fun e => e = "") with
  | [] => ""
  | rest => Clean ("/".intercalate rest)

/-! ## The observed world -/

/-- An entry of a directory listing (`os.FileInfo`): `Name()` and `IsDir()`. -/
structure FileInfo where
  Name : String
  IsDir : Bool
  deriving DecidableEq, Repr

/-- The error of `os.Stat`: none, one for which `os.IsNotExist` holds, or another. -/
inductive StatResult where
  | ok
  | notExist
  | otherError
  deriving DecidableEq, Repr

/-- What `os.Open` followed by a `bufio.Scanner` loop gives for a path: the file
cannot be opened, or the lines `scanner.Text()` yields and whether
`scanner.Err()` is non-nil once `scanner.Scan()` has returned false. -/
inductive ScanResult where
  | openError
  | scanned (lines : List String) (readError : Bool)
  deriving DecidableEq, Repr

/-- The environment and the filesystem snapshot a lookup runs against. -/
structure World where
  /-- Go `os.Getenv`: an unset variable reads as the empty string. -/
  Getenv : String → String
  /-- Go `os.Stat`, as far as its error is concerned. -/
  Stat : String → StatResult
  /-- Go `ioutil.ReadDir`: `none` when it returns an error. -/
  ReadDir : String → Option (List FileInfo)
  /-- Go `os.Open` and the scan of the lines of the file. -/
  Scan : String → ScanResult

/-! ## `internal/fdo.go` -/

def iconExtensions : List String := [".png", ".svg"]

/-- The Go struct `fdoIconData`. -/
structure fdoIconData where
  name : String
  iconName : String
  iconPath : String
  exec : String
  deriving DecidableEq, Repr

/-- The Go function `fdoLookupXdgDataDirs`. -/
def fdoLookupXdgDataDirs (w : World) : List String :=
  let dataLocation := w.Getenv "XDG_DATA_DIRS"
  let locationLookup := Split dataLocation ':'
  if locationLookup.length = 0 then
    ["/usr/local/share", "/usr/share"]
  else
    locationLookup

/-- The first path of the list for which `os.Stat` returns no error: the loops
of the Go file that test candidate paths in turn and return the first hit. -/
def firstStat (w : World) (paths : List String) : Option String :=
  paths.find? (fun p => decide (w.Stat p = StatResult.ok))

/-- The first non-empty result of `f` over the list: the loops of the Go file
that return the first result different from `""`. -/
def firstNonEmpty {α : Type} (f : α → String) : List α → Option String
  | [] => none
  | x :: xs => if f x ≠ "" then some (f x) else firstNonEmpty f xs

/-- The entries a size walk keeps, in the order it visits them: the listing is
walked from its last entry to its first, skipping the entries whose name starts
with a dot and those that are not directories. -/
def sizeDirs (files : List FileInfo) : List FileInfo :=
  files.reverse.filter (fun f => !(HasPrefix f.Name "." || !f.IsDir))

/-- The Go function `lookupAnyIconSizeInThemeDir`. -/
def lookupAnyIconSizeInThemeDir (w : World) (directory joiner iconName : String) : String :=
  match w.ReadDir directory with
  | none => ""
  | some files =>
    match firstStat w ((sizeDirs files).flatMap (fun f =>
        let matchDir := Join [directory, f.Name]
        iconExtensions.map (fun extension => Join [matchDir, joiner, iconName ++ extension]))) with
    | some testIcon => testIcon
    | none =>
      let directory := Join [directory, joiner]
      match w.ReadDir directory with
      | none => ""
      | some files =>
        match firstStat w ((sizeDirs files).flatMap (fun f =>
            let matchDir := Join [directory, f.Name]
            iconExtensions.map (fun extension => Join [matchDir, iconName ++ extension]))) with
        | some testIcon => testIcon
        | none => ""

def subIconDirs : List String :=
  ["apps", "actions", "devices", "emblems", "mimetypes", "places", "status"]

/-- The Go function `lookupIconPathInTheme`. -/
def lookupIconPathInTheme (w : World) (iconSize dir iconName : String) : String :=
  if w.Stat dir = StatResult.notExist then ""
  else
    match firstStat w (iconExtensions.flatMap (fun extension =>
        [ Join [dir, iconSize, "apps", iconName ++ extension],
          Join [dir, iconSize ++ "x" ++ iconSize, "apps", iconName ++ extension],
          Join [dir, "apps", iconSize, iconName ++ extension],
          Join [dir, "apps", iconSize ++ "x" ++ iconSize, iconName ++ extension],
          Join [dir, "scalable", "apps", iconName ++ extension],
          Join [dir, "apps", "scalable", iconName ++ extension] ])) with
    | some testIcon => testIcon
    | none =>
      match firstNonEmpty (fun joiner => lookupAnyIconSizeInThemeDir w dir joiner iconName)
          subIconDirs with
      | some testIcon => testIcon
      | none => ""

/-- The theme directories the last loop of `fdoLookupIconPath` enters for one
data directory: none when `icons` cannot be listed, else its entries that are
directories and whose name does not start with a dot, in listing order. -/
def themeDirs (w : World) (dataDir : String) : List String :=
  match w.ReadDir (Join [dataDir, "icons"]) with
  | none => []
  | some files =>
    (files.filter (fun f => !(HasPrefix f.Name "." || !f.IsDir))).map
      (fun f => Join [dataDir, "icons", f.Name])

/-- The Go function `fdoLookupIconPath`; `size` is printed with `%d`. -/
def fdoLookupIconPath (w : World) (theme : String) (size : Int) (iconName : String) : String :=
  let locationLookup := fdoLookupXdgDataDirs w
  let iconTheme := theme
  let iconSize := toString size
  match firstNonEmpty (fun dataDir =>
      lookupIconPathInTheme w iconSize (Join [dataDir, "icons", iconTheme]) iconName)
      locationLookup with
  | some iconPath => iconPath
  | none =>
    match firstNonEmpty (fun dataDir =>
        lookupIconPathInTheme w iconSize (Join [dataDir, "icons", "hicolor"]) iconName)
        locationLookup with
    | some iconPath => iconPath
    | none =>
      match firstStat w (locationLookup.flatMap (fun dataDir =>
          iconExtensions.map (fun extension =>
            Join [dataDir, "pixmaps", iconName ++ extension]))) with
      | some iconPath => iconPath
      | none =>
        match firstNonEmpty (fun dir => lookupIconPathInTheme w iconSize dir iconName)
            (locationLookup.flatMap (themeDirs w)) with
        | some iconPath => iconPath
        | none => ""

/-- Cutting after each `c` gives one piece more than there are `c` in the list. -/
theorem length_splitAfterChars (c : Char) (l : List Char) :
    (splitAfterChars c l).length = l.count c + 1 := by
  induction l with
  | nil => simp [splitAfterChars]
  | cons x xs ih =>
    by_cases hx : x = c
    · subst hx
      simp [splitAfterChars, ih]
    · have hc : (x == c) = false := by simpa using hx
      cases hs : splitAfterChars c xs with
      | nil => simp [hs] at ih
      | cons h t =>
        rw [hs] at ih
        simp only [List.length_cons] at ih
        simp [splitAfterChars, hx, hs, List.count_cons, hc, ← ih]

/-- A line that starts with a key ending in `=` splits after `=` into at least
two pieces: the index `1` of the Go file is in range. -/
theorem one_lt_length_SplitAfter (line key : String) (hk : '=' ∈ key.data)
    (h : HasPrefix line key = true) : 1 < (SplitAfter line '=').length := by
  have hp : key.data <+: line.data := List.isPrefixOf_iff_prefix.mp h
  have hm : '=' ∈ line.data := hp.subset hk
  have hc : 0 < line.data.count '=' := List.count_pos_iff.mpr hm
  simp only [SplitAfter, List.length_map, length_splitAfterChars]
  omega

/-- The state of the scan loop of `newFdoIconData`: the record being filled and
the variable `currentSection`. -/
structure ScanState where
  fdoApp : fdoIconData
  currentSection : String
  deriving DecidableEq, Repr

/-- The body of the scan loop of `newFdoIconData`, for one line. -/
def scanLine (w : World) (theme : String) (size : Int) (st : ScanState) (line : String) :
    ScanState :=
  let currentSection := if HasPrefix line "[" then line else st.currentSection
  if currentSection ≠ "[Desktop Entry]" then
    { st with currentSection := currentSection }
  else if h : HasPrefix line "Name=" = true then
    let name := SplitAfter line '='
    { fdoApp := { st.fdoApp with
        name := name.get ⟨1, one_lt_length_SplitAfter line "Name=" (by decide) h⟩ },
      currentSection := currentSection }
  else if h : HasPrefix line "Icon=" = true then
    let icon := SplitAfter line '='
    let iconName := icon.get ⟨1, one_lt_length_SplitAfter line "Icon=" (by decide) h⟩
    let iconPath :=
      if w.Stat iconName = StatResult.ok then iconName
      else fdoLookupIconPath w theme size iconName
    { fdoApp := { st.fdoApp with iconName := iconName, iconPath := iconPath },
      currentSection := currentSection }
  else if h : HasPrefix line "Exec=" = true then
    let exec := SplitAfter line '='
    { fdoApp := { st.fdoApp with
        exec := exec.get ⟨1, one_lt_length_SplitAfter line "Exec=" (by decide) h⟩ },
      currentSection := currentSection }
  else
    { st with currentSection := currentSection }

/-- The Go function `newFdoIconData`; `none` is the nil pointer it returns when
the file cannot be opened or the scanner reports an error. -/
def newFdoIconData (w : World) (theme : String) (size : Int) (desktopPath : String) :
    Option fdoIconData :=
  match w.Scan desktopPath with
  | ScanResult.openError => none
  | ScanResult.scanned lines readError =>
    let fdoApp : fdoIconData := { name := "", iconName := "", iconPath := "", exec := "" }
    let st := lines.foldl (scanLine w theme size) { fdoApp := fdoApp, currentSection := "" }
    if readError then none else some st.fdoApp

/-- A value of the Go interface `desktop.IconData` as this file produces it: the
nil interface value (`return nil`), or an interface value that holds a
`*fdoIconData`, which may itself be a nil pointer.  Go's `icon != nil` on an
interface value is false for the nil interface value only. -/
inductive IconData where
  | nil
  | fdo (data : Option fdoIconData)
  deriving DecidableEq, Repr

/-- Go `icon != nil` for an interface value. -/
def IconData.isNil : IconData → Bool
  | IconData.nil => true
  | IconData.fdo _ => false

/-- The inner loop of `fdoLookupApplicationByMetadata` over the entries of one
`applications` directory: `some r` when the loop returns `r`, `none` when it
runs to its end. -/
def metadataFiles (w : World) (theme : String) (size : Int) (appName testLocation : String) :
    List FileInfo → Option IconData
  | [] => none
  | f :: files =>
    if HasPrefix f.Name "." || f.IsDir then
      metadataFiles w theme size appName testLocation files
    else
      match newFdoIconData w theme size (Join [testLocation, f.Name]) with
      | none => some (IconData.fdo none)
      | some icon =>
        if icon.name = appName ∨ icon.exec = appName then some (IconData.fdo (some icon))
        else metadataFiles w theme size appName testLocation files

/-- The outer loop of `fdoLookupApplicationByMetadata` over the data directories. -/
def metadataDirs (w : World) (theme : String) (size : Int) (appName : String) :
    List String → IconData
  | [] => IconData.nil
  | dataDir :: rest =>
    let testLocation := Join [dataDir, "applications"]
    match w.ReadDir testLocation with
    | none => metadataDirs w theme size appName rest
    | some files =>
      match metadataFiles w theme size appName testLocation files with
      | some icon => icon
      | none => metadataDirs w theme size appName rest

/-- The Go function `fdoLookupApplicationByMetadata`. -/
def fdoLookupApplicationByMetadata (w : World) (theme : String) (size : Int)
    (appName : String) : IconData :=
  let locationLookup := fdoLookupXdgDataDirs w
  metadataDirs w theme size appName locationLookup

/-- The Go function `fdoLookupApplication`. -/
def fdoLookupApplication (w : World) (theme : String) (size : Int) (appName : String) :
    IconData :=
  let locationLookup := fdoLookupXdgDataDirs w
  match firstStat w (locationLookup.map (fun dataDir =>
      Join [dataDir, "applications", appName ++ ".desktop"])) with
  | some testLocation => IconData.fdo (newFdoIconData w theme size testLocation)
  | none => fdoLookupApplicationByMetadata w theme size appName

/-- The Go interface `desktop.Window`, as far as the lookup reads it. -/
structure Window where
  Title : String
  Class : List String
  Command : String
  IconName : String
  deriving DecidableEq, Repr

/-- The loop of `fdoLookupApplicationWinInfo` over the class names: `some icon`
when it returns `icon`, `none` when it runs to its end. -/
def winInfoClasses (w : World) (theme : String) (size : Int) : List String → Option IconData
  | [] => none
  | cls :: rest =>
    let icon := fdoLookupApplication w theme size cls
    if icon ≠ IconData.nil then some icon else winInfoClasses w theme size rest

/-- The Go function `fdoLookupApplicationWinInfo`. -/
def fdoLookupApplicationWinInfo (w : World) (theme : String) (size : Int) (win : Window) :
    IconData :=
  let icon := fdoLookupApplication w theme size win.Title
  if icon ≠ IconData.nil then icon
  else
    match winInfoClasses w theme size win.Class with
    | some icon => icon
    | none =>
      let icon := fdoLookupApplication w theme size win.Command
      if icon ≠ IconData.nil then icon
      else fdoLookupApplication w theme size win.IconName

/-- Go `strings.ToLower(s)`: every character mapped by `unicode.ToLower`.  The
case tables of the Unicode standard are no part of this file: the mapping of
one character is the parameter `lower`. -/
def ToLower (lower : Char → Char) (s : String) : String :=
  String.mk (s.data.map lower)

/-- Whether `sub` occurs in `l` as a run of consecutive characters. -/
def containsChars (sub : List Char) : List Char → Bool
  | [] => sub.isPrefixOf []
  | x :: xs => sub.isPrefixOf (x :: xs) || containsChars sub xs

/-- Go `strings.Contains(s, substr)`. -/
def Contains (s substr : String) : Bool :=
  containsChars substr.data s.data

/-- The inner loop of `fdoLookupApplicationMatching` over the entries of one
`applications` directory: the slice `icons` after the loop. -/
def matchingFiles (lower : Char → Char) (w : World) (theme : String) (size : Int)
    (appName testLocation : String) (icons : List IconData) : List FileInfo → List IconData
  | [] => icons
  | f :: files =>
    if HasPrefix f.Name "." || f.IsDir then
      matchingFiles lower w theme size appName testLocation icons files
    else
      match newFdoIconData w theme size (Join [testLocation, f.Name]) with
      | none => matchingFiles lower w theme size appName testLocation icons files
      | some icon =>
        if Contains (ToLower lower icon.name) (ToLower lower appName)
            || Contains (ToLower lower icon.exec) (ToLower lower appName) then
          matchingFiles lower w theme size appName testLocation
            (icons ++ [IconData.fdo (some icon)]) files
        else
          matchingFiles lower w theme size appName testLocation icons files

/-- The outer loop of `fdoLookupApplicationMatching` over the data directories. -/
def matchingDirs (lower : Char → Char) (w : World) (theme : String) (size : Int)
    (appName : String) (icons : List IconData) : List String → List IconData
  | [] => icons
  | dataDir :: rest =>
    let testLocation := Join [dataDir, "applications"]
    match w.ReadDir testLocation with
    | none => matchingDirs lower w theme size appName icons rest
    | some files =>
      matchingDirs lower w theme size appName
        (matchingFiles lower w theme size appName testLocation icons files) rest

/-- The Go function `fdoLookupApplicationMatching`; `lower` is `unicode.ToLower`. -/
def fdoLookupApplicationMatching (lower : Char → Char) (w : World) (theme : String)
    (size : Int) (appName : String) : List IconData :=
  let icons : List IconData := []
  let locationLookup := fdoLookupXdgDataDirs w
  matchingDirs lower w theme size appName icons locationLookup

/-! ## Notions used to state the properties -/

/-- The twelve direct candidates of the per-theme search, in the order the
specification lists them: the six `.png` shapes, then the six `.svg` shapes. -/
def directCandidates (root S n : String) : List String :=
  [ Join [root, S, "apps", n ++ ".png"],
    Join [root, S ++ "x" ++ S, "apps", n ++ ".png"],
    Join [root, "apps", S, n ++ ".png"],
    Join [root, "apps", S ++ "x" ++ S, n ++ ".png"],
    Join [root, "scalable", "apps", n ++ ".png"],
    Join [root, "apps", "scalable", n ++ ".png"],
    Join [root, S, "apps", n ++ ".svg"],
    Join [root, S ++ "x" ++ S, "apps", n ++ ".svg"],
    Join [root, "apps", S, n ++ ".svg"],
    Join [root, "apps", S ++ "x" ++ S, n ++ ".svg"],
    Join [root, "scalable", "apps", n ++ ".svg"],
    Join [root, "apps", "scalable", n ++ ".svg"] ]

/-- The piece at index `1` of the split of a line after `=`: what the parser
stores for a key line (`""` stands for an index out of range, which
`one_lt_length_SplitAfter` excludes for the lines the parser splits).  It is
the value of the line only when that value holds no `=`. -/
def fieldValue (line : String) : String :=
  (SplitAfter line '=').getD 1 ""

/-- The value of a key line in the words of the specification: everything
after the first `=` of the line. -/
def lineValue (line : String) : String :=
  String.mk ((line.data.dropWhile (fun c => decide (c ≠ '='))).drop 1)

/-- The literal section header of desktop entries. -/
def desktopEntry : String := "[Desktop Entry]"

/-- The value of `currentSection` after the loop body ran on `line`. -/
def nextSection (currentSection line : String) : String :=
  if HasPrefix line "[" then line else currentSection

/-- The section header in force after the lines `seen`: the last of them that
begins with `[`, and the empty string when there is none. -/
def sectionOf (seen : List String) : String :=
  ((seen.filter (fun l => HasPrefix l "[")).getLast?).getD ""

/-- A `Name=`, `Icon=` or `Exec=` line. -/
def isKeyLine (line : String) : Bool :=
  HasPrefix line "Name=" || HasPrefix line "Icon=" || HasPrefix line "Exec="

/-- The lines `rest`, which follow the lines `seen` in a file, without the key
lines that stand outside the `[Desktop Entry]` section and that `sel` selects
by their index in the file. -/
def removeIgnored (sel : Nat → Bool) : List String → List String → List String
  | _, [] => []
  | seen, l :: rest =>
    if sel seen.length && isKeyLine l && decide (sectionOf seen ≠ desktopEntry) then
      removeIgnored sel (seen ++ [l]) rest
    else
      l :: removeIgnored sel (seen ++ [l]) rest

/-- The world `w` with the file at `path` replaced by `content`; `os.Stat` and
the directory listings are those of `w`. -/
def World.withFile (w : World) (path : String) (content : ScanResult) : World :=
  { w with Scan := fun p => if p = path then content else w.Scan p }

/-- The lines of `rest`, which follow the lines `seen` in a file, that stand
inside the `[Desktop Entry]` section: the last line beginning with `[` up to and
including the line itself is `[Desktop Entry]`. -/
def sectionLines : List String → List String → List String
  | _, [] => []
  | seen, l :: rest =>
    if sectionOf (seen ++ [l]) = desktopEntry then l :: sectionLines (seen ++ [l]) rest
    else sectionLines (seen ++ [l]) rest

/-- The piece the parser stores for the last line among `ls` that begins with
`key`, and `dflt` when no line does. -/
def lastStoredFrom (key dflt : String) (ls : List String) : String :=
  match (ls.filter (fun l => HasPrefix l key)).getLast? with
  | none => dflt
  | some l => fieldValue l

/-- The last line of a file that begins with `key` and stands inside the
`[Desktop Entry]` section, if there is one. -/
def lastKeyLine (key : String) (lines : List String) : Option String :=
  ((sectionLines [] lines).filter (fun l => HasPrefix l key)).getLast?

/-- The value of the last `key` line inside the `[Desktop Entry]` section of a
file, everything after the first `=` of that line, and the empty string when
the section has no such line. -/
def lastValue (key : String) (lines : List String) : String :=
  match lastKeyLine key lines with
  | none => ""
  | some l => lineValue l

/-- The descriptor `<dataDir>/applications/<appName>.desktop`. -/
def exactPath (appName dataDir : String) : String :=
  Join [dataDir, "applications", appName ++ ".desktop"]

/-- The paths the metadata scan parses for one data directory, in the order of
the listing of its `applications` directory: the entries that are not
directories and whose name does not start with a dot; none when the directory
cannot be listed. -/
def applicationEntries (w : World) (dataDir : String) : List String :=
  match w.ReadDir (Join [dataDir, "applications"]) with
  | none => []
  | some files =>
    (files.filter (fun f => !(HasPrefix f.Name "." || f.IsDir))).map
      (fun f => Join [Join [dataDir, "applications"], f.Name])

/-- The paths the metadata scan parses, in data-directory order then listing
order. -/
def applicationFiles (w : World) : List String :=
  (fdoLookupXdgDataDirs w).flatMap (applicationEntries w)

/-- The first record, among those parsed from `paths` in order, whose display
name or exec command equals `appName`. -/
def firstMatching (w : World) (theme : String) (size : Int) (appName : String)
    (paths : List String) : Option fdoIconData :=
  (paths.filterMap (newFdoIconData w theme size)).find?
    (fun d => decide (d.name = appName ∨ d.exec = appName))

/-- Whether a record matches a fragment in the partial lookup: the lower-cased
fragment occurs in the lower-cased display name or in the lower-cased exec
command. -/
def matchesFragment (lower : Char → Char) (fragment : String) (d : fdoIconData) : Bool :=
  Contains (ToLower lower d.name) (ToLower lower fragment)
    || Contains (ToLower lower d.exec) (ToLower lower fragment)

/-- The icon path the specification gives for the icon value `v`: `v` itself
when it is an existing path, else the result of the icon resolver for `v`. -/
def resolvedIconPath (w : World) (theme : String) (size : Int) (v : String) : String :=
  if w.Stat v = StatResult.ok then v else fdoLookupIconPath w theme size v

/-- The icon path the parser holds after the lines `ls` of the section, resolved
from the piece it stores for the last `Icon=` line; `dflt` when none of them is
an `Icon=` line. -/
def lastIconPathFrom (w : World) (theme : String) (size : Int) (dflt : String)
    (ls : List String) : String :=
  match (ls.filter (fun l => HasPrefix l "Icon=")).getLast? with
  | none => dflt
  | some l => resolvedIconPath w theme size (fieldValue l)

/-- The size-then-category paths `<root>/<d>/<c>/<name>.png`, `.svg` over the
entries `d` of the listing `files` of `<root>` that are directories and not
hidden, taken in reverse listing order. -/
def sizeThenCategory (root c n : String) (files : List FileInfo) : List String :=
  ((files.filter (fun f => f.IsDir && !HasPrefix f.Name ".")).reverse).flatMap (fun d =>
    [Join [Join [root, d.Name], c, n ++ ".png"], Join [Join [root, d.Name], c, n ++ ".svg"]])

/-- The category-then-size paths `<root>/<c>/<d>/<name>.png`, `.svg` over the
entries `d` of `<root>/<c>` that are directories and not hidden, taken in
reverse listing order; none when `<root>/<c>` cannot be listed. -/
def categoryThenSize (w : World) (root c n : String) : List String :=
  match w.ReadDir (Join [root, c]) with
  | none => []
  | some files =>
    ((files.filter (fun f => f.IsDir && !HasPrefix f.Name ".")).reverse).flatMap (fun d =>
      [Join [Join [Join [root, c], d.Name], n ++ ".png"],
        Join [Join [Join [root, c], d.Name], n ++ ".svg"]])

/-- Go's `<` on strings, which compares them byte by byte, on the characters
of two strings. -/
def lexLt : List Char → List Char → Bool
  | [], [] => false
  | [], _ :: _ => true
  | _ :: _, [] => false
  | a :: as, b :: bs => decide (a.toNat < b.toNat) || (decide (a.toNat = b.toNat) && lexLt as bs)

/-- A listing sorted by file name, as `ioutil.ReadDir` returns it: no entry has
a name smaller than the name of an entry before it. -/
def sortedByName (files : List FileInfo) : Prop :=
  files.Pairwise (fun a b => lexLt b.Name.data a.Name.data = false)

/-- A decimal digit. -/
def isDecimalDigit (c : Char) : Bool :=
  decide (48 ≤ c.toNat ∧ c.toNat ≤ 57)

/-- The number a list of decimal digits writes. -/
def digitsValue : List Char → Nat
  | [] => 0
  | c :: cs => (c.toNat - 48) * 10 ^ cs.length + digitsValue cs

/-- The size `N` of a directory named `N` or `NxN`, with `N` written in `k`
decimal digits; `none` for any other name. -/
def sizeOfName (k : Nat) (name : String) : Option Nat :=
  let ds := name.data.take k
  let rest := name.data.drop k
  if ds.length = k ∧ ds.all isDecimalDigit = true ∧ (rest = [] ∨ rest = 'x' :: ds) then
    some (digitsValue ds)
  else none

/-- The size of a size directory, `0` for a name that is none. -/
def sizeValue (k : Nat) (name : String) : Nat :=
  (sizeOfName k name).getD 0

/-- The two paths `lookupAnyIconSizeInThemeDir` tests in the size directory
`name` of `directory`: the `.png` one and the `.svg` one. -/
def sizePng (directory joiner iconName name : String) : String :=
  Join [Join [directory, name], joiner, iconName ++ ".png"]

def sizeSvg (directory joiner iconName name : String) : String :=
  Join [Join [directory, name], joiner, iconName ++ ".svg"]

/-- Whether the icon exists, as `.png` or as `.svg`, in the size directory `f`,
an entry that is a directory and is not hidden. -/
def holdsIcon (w : World) (directory joiner iconName : String) (f : FileInfo) : Prop :=
  f.IsDir = true ∧ HasPrefix f.Name "." = false
    ∧ (w.Stat (sizePng directory joiner iconName f.Name) = StatResult.ok
      ∨ w.Stat (sizeSvg directory joiner iconName f.Name) = StatResult.ok)

/-- A path element that `filepath.Clean` keeps as it is: not empty, without
`/`, and neither `.` nor `..`. -/
def plainChars (e : List Char) : Prop :=
  e ≠ [] ∧ '/' ∉ e ∧ e ≠ ['.'] ∧ e ≠ ['.', '.']

/-- The string `filepath.Clean` writes for a rooted or unrooted stack of path
elements, last element first. -/
def render (rooted : Bool) (stack : List (List Char)) : String :=
  let body := String.mk (List.intercalate ['/'] stack.reverse)
  let out := (if rooted then "/" else "") ++ body
  if out = "" then "." else out

/-- A stack that `filepath.Clean` can have built: elements without `/`, none
empty or `.`, and `..` only at the bottom of an unrooted stack. -/
def Normal (rooted : Bool) : List (List Char) → Prop
  | [] => True
  | e :: st =>
    e ≠ [] ∧ '/' ∉ e ∧ e ≠ ['.']
      ∧ (e = ['.', '.'] → rooted = false ∧ ∀ x ∈ st, x = ['.', '.'])
      ∧ Normal rooted st

/-- A string without a path element `..`. -/
def noDotDot (e : String) : Bool :=
  decide (['.', '.'] ∉ splitChars '/' e.data)

/-- The path `X` is a base stack with plain elements on top. -/
def Ext (r : Bool) (B : List (List Char)) (X : String) : Prop :=
  ∃ T : List (List Char), (∀ t ∈ T, plainChars t) ∧ X = render r (T ++ B)

/-- The path `p` is a base stack with plain elements on top, the last of them
`e`. -/
def Tail (r : Bool) (B : List (List Char)) (e : List Char) (p : String) : Prop :=
  ∃ T : List (List Char), (∀ t ∈ T, plainChars t) ∧ p = render r (e :: T ++ B)

/-- Whether `path` lies under the directory `dir`: it is `dir`, a `/`, and
more. -/
def liesUnder (dir path : String) : Bool :=
  HasPrefix path (dir ++ "/")

/-- The final component of a path: what follows its last `/`. -/
def finalComponent (path : String) : String :=
  String.mk ((splitChars '/' path.data).getLast?.getD [])

/-- A character that is neither `.` nor `/`. -/
def pathNeutral (c : Char) : Prop := c ≠ '.' ∧ c ≠ '/'

/-- Directory listings hold names that are single path elements other than `.`
and `..`, as every listing of a real directory does. -/
def plainListings (w : World) : Prop :=
  ∀ (dir : String) (files : List FileInfo), w.ReadDir dir = some files →
    ∀ f ∈ files, plainChars f.Name.data

/-- What the specification asks of a path the icon resolver returns: it exists,
it lies under `<d>/icons/` or `<d>/pixmaps/` for a data directory `d`, and its
final component is the icon name with one of the two extensions. -/
def validIconPath (w : World) (iconName : String) (dirs : List String) (p : String) : Prop :=
  w.Stat p = StatResult.ok
    ∧ (∃ d ∈ dirs, liesUnder (Join [d, "icons"]) p = true
        ∨ liesUnder (Join [d, "pixmaps"]) p = true)
    ∧ (finalComponent p = iconName ++ ".png" ∨ finalComponent p = iconName ++ ".svg")

/-- Whether a lookup result holds no descriptor: the nil interface value, or an
interface value that holds a nil record. -/
def IconData.isNull : IconData → Bool
  | IconData.nil => true
  | IconData.fdo none => true
  | IconData.fdo (some _) => false

/-! ## Worlds used to evaluate the definitions -/

/-- A world in which nothing exists: every variable unset, every `os.Stat` a
not-exist error, no directory listable, no file openable. -/
def emptyWorld : World :=
  { Getenv := fun _ => "",
    Stat := fun _ => StatResult.notExist,
    ReadDir := fun _ => none,
    Scan := fun _ => ScanResult.openError }

/-- Data directories `/d1` and `/d2`; the icon `x` is in hicolor under `/d1`,
and in the theme `T` under `/d2`, there both at `16/apps` and at `apps/16x16`. -/
def iconWorld : World :=
  { emptyWorld with
    Getenv := fun k => if k = "XDG_DATA_DIRS" then "/d1:/d2" else "",
    Stat := fun p =>
      if p ∈ ["/d1/icons/hicolor", "/d1/icons/hicolor/16/apps/x.png", "/d2/icons/T",
          "/d2/icons/T/16/apps/x.png", "/d2/icons/T/apps/16x16/x.png",
          "/d2/icons/T/scalable/apps/x.png", "/d2/icons/T/16/apps/x.svg"]
      then StatResult.ok else StatResult.notExist }

/-- A descriptor whose last `Exec` line has a value that contains `=`. -/
def execWorld : World :=
  { emptyWorld with
    Scan := fun p =>
      if p = "/d/applications/app.desktop" then
        ScanResult.scanned ["[Desktop Entry]", "Name=App", "Exec=env A=1 app"] false
      else ScanResult.openError }

/-- A descriptor with key lines before the `[Desktop Entry]` header, inside the
section, inside another section, and inside the section entered again. -/
def scopedLines : List String :=
  ["Name=Early", "[Desktop Entry]", "Name=One", "Exec=one", "[Desktop Action New]",
    "Name=Other", "Exec=other", "[Desktop Entry]", "Name=Two"]

/-- A descriptor with two `Name=` lines and two `Exec=` lines in the section,
no `Icon=` line, and key lines in another section. -/
def twoNamesWorld : World :=
  { emptyWorld with
    Scan := fun p =>
      if p = "/d/applications/two.desktop" then
        ScanResult.scanned ["[Desktop Entry]", "Name=First", "Exec=first", "Name=Second",
          "Exec=second", "[Desktop Action New]", "Name=Third", "Icon=third"] false
      else ScanResult.openError }

/-- Data directories `/d1` and `/d2`; `xterm.desktop` exists in `/d2` only, and
`/d1/applications` lists a descriptor whose display name is `xterm` too. -/
def exactWorld : World :=
  { Getenv := fun k => if k = "XDG_DATA_DIRS" then "/d1:/d2" else "",
    Stat := fun p =>
      if p = "/d2/applications/xterm.desktop" then StatResult.ok else StatResult.notExist,
    ReadDir := fun p =>
      if p = "/d1/applications" then some [{ Name := "other.desktop", IsDir := false }]
      else none,
    Scan := fun p =>
      if p = "/d2/applications/xterm.desktop" then
        ScanResult.scanned ["[Desktop Entry]", "Name=XTerm", "Exec=xterm"] false
      else if p = "/d1/applications/other.desktop" then
        ScanResult.scanned ["[Desktop Entry]", "Name=xterm", "Exec=other"] false
      else ScanResult.openError }

/-- One data directory `/d` whose `applications` lists `a.desktop`, which cannot
be opened, then `b.desktop`, a readable descriptor of the application `foo`. -/
def unreadableWorld : World :=
  { Getenv := fun k => if k = "XDG_DATA_DIRS" then "/d" else "",
    Stat := fun _ => StatResult.notExist,
    ReadDir := fun p =>
      if p = "/d/applications" then
        some [{ Name := "a.desktop", IsDir := false }, { Name := "b.desktop", IsDir := false }]
      else none,
    Scan := fun p =>
      if p = "/d/applications/b.desktop" then
        ScanResult.scanned ["[Desktop Entry]", "Name=foo", "Exec=/usr/bin/foo"] false
      else ScanResult.openError }

/-- Data directories `/d0`, `/d1`, `/d2`: `/d0/applications` cannot be listed,
`/d1/applications` holds a hidden file, a directory and a descriptor of `bar`,
`/d2/applications` holds two descriptors whose exec command is `foo`. -/
def scanWorld : World :=
  { Getenv := fun k => if k = "XDG_DATA_DIRS" then "/d0:/d1:/d2" else "",
    Stat := fun _ => StatResult.notExist,
    ReadDir := fun p =>
      if p = "/d1/applications" then
        some [{ Name := ".hidden.desktop", IsDir := false }, { Name := "dir", IsDir := true },
          { Name := "bar.desktop", IsDir := false }]
      else if p = "/d2/applications" then
        some [{ Name := "f1.desktop", IsDir := false }, { Name := "f2.desktop", IsDir := false }]
      else none,
    Scan := fun p =>
      if p = "/d1/applications/bar.desktop" then
        ScanResult.scanned ["[Desktop Entry]", "Name=Bar", "Exec=bar"] false
      else if p = "/d2/applications/f1.desktop" then
        ScanResult.scanned ["[Desktop Entry]", "Name=Foo One", "Exec=foo"] false
      else if p = "/d2/applications/f2.desktop" then
        ScanResult.scanned ["[Desktop Entry]", "Name=Foo Two", "Exec=foo"] false
      else ScanResult.openError }

/-- Data directories `/d1` and `/d2`, each with the same descriptor of `Foo`
(the fragment `foo` occurs in its name and in its exec command); `/d1` also
holds an unreadable descriptor and one of another application. -/
def matchingWorld : World :=
  { Getenv := fun k => if k = "XDG_DATA_DIRS" then "/d1:/d2" else "",
    Stat := fun _ => StatResult.notExist,
    ReadDir := fun p =>
      if p = "/d1/applications" then
        some [{ Name := "broken.desktop", IsDir := false },
          { Name := "foo.desktop", IsDir := false }, { Name := "vim.desktop", IsDir := false }]
      else if p = "/d2/applications" then some [{ Name := "foo.desktop", IsDir := false }]
      else none,
    Scan := fun p =>
      if p = "/d1/applications/foo.desktop" ∨ p = "/d2/applications/foo.desktop" then
        ScanResult.scanned ["[Desktop Entry]", "Name=Foo", "Exec=foo"] false
      else if p = "/d1/applications/vim.desktop" then
        ScanResult.scanned ["[Desktop Entry]", "Name=Vim", "Exec=vim"] false
      else ScanResult.openError }

/-- Data directories `/d1` and `/d2` without the theme `T` and without hicolor;
`/d1/icons` lists the theme `Other`, which holds the icon `x`, and
`/d2/pixmaps/x.svg` exists; `/d2/icons` cannot be listed. -/
def pixmapsWorld : World :=
  { Getenv := fun k => if k = "XDG_DATA_DIRS" then "/d1:/d2" else "",
    Stat := fun p =>
      if p ∈ ["/d1/icons/Other", "/d1/icons/Other/16/apps/x.png", "/d2/pixmaps/x.svg"]
      then StatResult.ok else StatResult.notExist,
    ReadDir := fun p =>
      if p = "/d1/icons" then
        some [{ Name := ".cache", IsDir := true }, { Name := "Other", IsDir := true },
          { Name := "index.theme", IsDir := false }]
      else none,
    Scan := fun _ => ScanResult.openError }

/-- One data directory `/d` with the theme `T`; the descriptor `app.desktop` has
an `Icon=` line whose value `/opt/app.png` exists, then one whose value `app`
resolves in the theme; `none.desktop` names an icon that is found nowhere. -/
def iconValueWorld : World :=
  { Getenv := fun k => if k = "XDG_DATA_DIRS" then "/d" else "",
    Stat := fun p =>
      if p ∈ ["/opt/app.png", "/d/icons/T", "/d/icons/T/16/apps/app.png"]
      then StatResult.ok else StatResult.notExist,
    ReadDir := fun _ => none,
    Scan := fun p =>
      if p = "/d/applications/app.desktop" then
        ScanResult.scanned ["[Desktop Entry]", "Icon=/opt/app.png", "Name=App", "Icon=app"] false
      else if p = "/d/applications/path.desktop" then
        ScanResult.scanned ["[Desktop Entry]", "Icon=/opt/app.png"] false
      else if p = "/d/applications/none.desktop" then
        ScanResult.scanned ["[Desktop Entry]", "Icon=missing"] false
      else ScanResult.openError }

/-- Data directories `/d1` and `/d2`, both with `xterm.desktop`: the one of `/d1`
cannot be opened, the one of `/d2` is readable, and `/d2/applications` also
lists a readable descriptor whose display name is `xterm`. -/
def blockedWorld : World :=
  { Getenv := fun k => if k = "XDG_DATA_DIRS" then "/d1:/d2" else "",
    Stat := fun p =>
      if p = "/d1/applications/xterm.desktop" ∨ p = "/d2/applications/xterm.desktop"
      then StatResult.ok else StatResult.notExist,
    ReadDir := fun p =>
      if p = "/d2/applications" then
        some [{ Name := "term.desktop", IsDir := false },
          { Name := "xterm.desktop", IsDir := false }]
      else none,
    Scan := fun p =>
      if p = "/d2/applications/xterm.desktop" then
        ScanResult.scanned ["[Desktop Entry]", "Name=XTerm", "Exec=xterm"] false
      else if p = "/d2/applications/term.desktop" then
        ScanResult.scanned ["[Desktop Entry]", "Name=xterm", "Exec=term"] false
      else ScanResult.openError }

/-- A theme root `/r` with the size directories `16` and `32`, a hidden
directory and a file; the icon `x` is at `32/actions/x.png`, at `16/apps/x.svg`
and, in the category-then-size layout, at `apps/48/x.png`; the icon `y` is at
`apps/48/y.png` only. -/
def categoryWorld : World :=
  { emptyWorld with
    Stat := fun p =>
      if p ∈ ["/r", "/r/32/actions/x.png", "/r/16/apps/x.svg", "/r/apps/48/x.png",
          "/r/apps/48/y.png", "/r/.git/apps/x.png"]
      then StatResult.ok else StatResult.notExist,
    ReadDir := fun p =>
      if p = "/r" then
        some [{ Name := ".git", IsDir := true }, { Name := "16", IsDir := true },
          { Name := "32", IsDir := true }, { Name := "apps", IsDir := true },
          { Name := "index.theme", IsDir := false }]
      else if p = "/r/apps" then
        some [{ Name := "24", IsDir := true }, { Name := "48", IsDir := true }]
      else none }

/-- A theme root `/r` with the size directories `16`, `32` and `64`, listed in
the order of their names; the icon `x` of category apps is a `.png` in `16` and
in `32` and a `.svg` in `64`. -/
def sizesWorld : World :=
  { emptyWorld with
    Stat := fun p =>
      if p ∈ ["/r", "/r/16/apps/x.png", "/r/32/apps/x.png", "/r/64/apps/x.svg"]
      then StatResult.ok else StatResult.notExist,
    ReadDir := fun p =>
      if p = "/r" then
        some [{ Name := "16", IsDir := true }, { Name := "32", IsDir := true },
          { Name := "64", IsDir := true }]
      else none }

/-- One data directory `/d` that holds the file `/d/x.png`, outside of its
`icons` and `pixmaps` directories. -/
def escapeWorld : World :=
  { emptyWorld with
    Getenv := fun k => if k = "XDG_DATA_DIRS" then "/d" else "",
    Stat := fun p => if p = "/d/x.png" then StatResult.ok else StatResult.notExist }

/-- One data directory `/d`; `names.desktop` has two `Name=` lines, the last
with a value that holds `=`; `icon.desktop` names the icon `/opt/a=b.png`, a
file that exists. -/
def eqWorld : World :=
  { Getenv := fun k => if k = "XDG_DATA_DIRS" then "/d" else "",
    Stat := fun p => if p = "/opt/a=b.png" then StatResult.ok else StatResult.notExist,
    ReadDir := fun _ => none,
    Scan := fun p =>
      if p = "/d/applications/names.desktop" then
        ScanResult.scanned ["[Desktop Entry]", "Name=A", "Name=A=B"] false
      else if p = "/d/applications/icon.desktop" then
        ScanResult.scanned ["[Desktop Entry]", "Icon=/opt/a=b.png"] false
      else ScanResult.openError }

/-- One data directory `/d` whose `applications` lists `a.desktop`, which cannot
be opened, then `term.desktop`, a readable descriptor. -/
def nilRecordWorld : World :=
  { Getenv := fun k => if k = "XDG_DATA_DIRS" then "/d" else "",
    Stat := fun p =>
      if p = "/d/applications/term.desktop" then StatResult.ok else StatResult.notExist,
    ReadDir := fun p =>
      if p = "/d/applications" then
        some [{ Name := "a.desktop", IsDir := false }, { Name := "term.desktop", IsDir := false }]
      else none,
    Scan := fun p =>
      if p = "/d/applications/term.desktop" then
        ScanResult.scanned ["[Desktop Entry]", "Name=Terminal", "Exec=term"] false
      else ScanResult.openError }

/-- A theme root `/r` that exists and cannot be listed, while its directory
`apps` can: the icon `x` is at `apps/48/x.png`. -/
def unlistableWorld : World :=
  { emptyWorld with
    Stat := fun p =>
      if p ∈ ["/r", "/r/apps/48/x.png"] then StatResult.ok else StatResult.notExist,
    ReadDir := fun p =>
      if p = "/r/apps" then some [{ Name := "48", IsDir := true }] else none }

/-! ## Loops that return at the first hit -/

theorem firstStat_append_hit (w : World) (pre post : List String) (p : String)
    (hpre : ∀ q ∈ pre, w.Stat q ≠ StatResult.ok) (hp : w.Stat p = StatResult.ok) :
    firstStat w (pre ++ p :: post) = some p := by
  induction pre with
  | nil => simp [firstStat, hp]
  | cons q qs ih =>
    have hq : w.Stat q ≠ StatResult.ok := hpre q (List.mem_cons_self q qs)
    have hqs : ∀ r ∈ qs, w.Stat r ≠ StatResult.ok :=
      fun r hr => hpre r (List.mem_cons_of_mem q hr)
    have := ih hqs
    simp only [firstStat] at this ⊢
    simp [List.find?_cons, hq, this]

theorem firstNonEmpty_append_hit {α : Type} (f : α → String) (pre post : List α) (d : α)
    (hpre : ∀ e ∈ pre, f e = "") (hd : f d ≠ "") :
    firstNonEmpty f (pre ++ d :: post) = some (f d) := by
  induction pre with
  | nil => simp [firstNonEmpty, hd]
  | cons e es ih =>
    have he : f e = "" := hpre e (List.mem_cons_self e es)
    have hes : ∀ r ∈ es, f r = "" := fun r hr => hpre r (List.mem_cons_of_mem e hr)
    simp [firstNonEmpty, he, ih hes]

/-! ## The icon resolver -/

/-- C1. Tier ordering of `fdoLookupIconPath`: when the per-theme search rooted
at `<d>/icons/<theme>` finds a file for the data directory `d` and finds none
for the data directories before `d` in the list, the result is the per-theme
result for `d`, whatever hicolor, the pixmaps directories and the other themes
contain. -/
theorem fdoLookupIconPath_named_theme_first (w : World) (theme : String) (size : Int)
    (iconName : String) (pre post : List String) (d : String)
    (hdirs : fdoLookupXdgDataDirs w = pre ++ d :: post)
    (hpre : ∀ e ∈ pre,
      lookupIconPathInTheme w (toString size) (Join [e, "icons", theme]) iconName = "")
    (hd : lookupIconPathInTheme w (toString size) (Join [d, "icons", theme]) iconName ≠ "") :
    fdoLookupIconPath w theme size iconName
      = lookupIconPathInTheme w (toString size) (Join [d, "icons", theme]) iconName := by
  unfold fdoLookupIconPath
  simp only [hdirs]
  rw [firstNonEmpty_append_hit
    (fun dataDir => lookupIconPathInTheme w (toString size) (Join [dataDir, "icons", theme])
      iconName) pre post d hpre hd]

/-- Witness of C1 in `iconWorld`: `/d1` has the icon in hicolor only, `/d2` has
it in the theme `T`, and the result is the theme `T` path of `/d2`. -/
theorem fdoLookupIconPath_named_theme_first_witness :
    fdoLookupIconPath iconWorld "T" 16 "x" = "/d2/icons/T/16/apps/x.png" :=
  (fdoLookupIconPath_named_theme_first iconWorld "T" 16 "x" ["/d1"] [] "/d2"
    (by decide) (by decide) (by decide)).trans (by decide)

/-- C2. Direct per-theme search order of `lookupIconPathInTheme`: for a theme
root that exists (it is enough that `os.Stat` of the root is not a not-exist
error), when `p` is the first of the twelve direct candidates that exists, the
function returns `p`. -/
theorem lookupIconPathInTheme_first_direct (w : World) (S root n : String)
    (pre post : List String) (p : String)
    (hroot : w.Stat root ≠ StatResult.notExist)
    (hcand : directCandidates root S n = pre ++ p :: post)
    (hpre : ∀ q ∈ pre, w.Stat q ≠ StatResult.ok)
    (hp : w.Stat p = StatResult.ok) :
    lookupIconPathInTheme w S root n = p := by
  have hlist : (iconExtensions.flatMap (fun extension =>
        [ Join [root, S, "apps", n ++ extension],
          Join [root, S ++ "x" ++ S, "apps", n ++ extension],
          Join [root, "apps", S, n ++ extension],
          Join [root, "apps", S ++ "x" ++ S, n ++ extension],
          Join [root, "scalable", "apps", n ++ extension],
          Join [root, "apps", "scalable", n ++ extension] ])) = directCandidates root S n := by
    simp [iconExtensions, directCandidates]
  unfold lookupIconPathInTheme
  rw [if_neg hroot, hlist, hcand, firstStat_append_hit w pre post p hpre hp]

/-- Witness of C2 in `iconWorld`: under `/d2/icons/T` the icon exists at
`16/apps/x.png`, at `apps/16x16/x.png`, at `scalable/apps/x.png` and at
`16/apps/x.svg`; the first candidate of the list, `16/apps/x.png`, is returned. -/
theorem lookupIconPathInTheme_first_direct_witness :
    lookupIconPathInTheme iconWorld "16" "/d2/icons/T" "x" = "/d2/icons/T/16/apps/x.png" :=
  lookupIconPathInTheme_first_direct iconWorld "16" "/d2/icons/T" "x" []
    [ "/d2/icons/T/16x16/apps/x.png", "/d2/icons/T/apps/16/x.png",
      "/d2/icons/T/apps/16x16/x.png", "/d2/icons/T/scalable/apps/x.png",
      "/d2/icons/T/apps/scalable/x.png", "/d2/icons/T/16/apps/x.svg",
      "/d2/icons/T/16x16/apps/x.svg", "/d2/icons/T/apps/16/x.svg",
      "/d2/icons/T/apps/16x16/x.svg", "/d2/icons/T/scalable/apps/x.svg",
      "/d2/icons/T/apps/scalable/x.svg" ]
    "/d2/icons/T/16/apps/x.png" (by decide) (by decide) (by decide) (by decide)

/-! ## The data directories -/

/-- Splitting never gives the empty list. -/
theorem splitChars_ne_nil (c : Char) (l : List Char) : splitChars c l ≠ [] := by
  cases l with
  | nil => simp [splitChars]
  | cons x xs =>
    by_cases hx : x = c
    · simp [splitChars, hx]
    · cases hs : splitChars c xs <;> simp [splitChars, hx, hs]

/-- The fallback branch of `fdoLookupXdgDataDirs` is never taken: the result is
always the split of the variable. -/
theorem fdoLookupXdgDataDirs_eq_Split (w : World) :
    fdoLookupXdgDataDirs w = Split (w.Getenv "XDG_DATA_DIRS") ':' := by
  unfold fdoLookupXdgDataDirs
  have h : (Split (w.Getenv "XDG_DATA_DIRS") ':').length ≠ 0 := by
    simp [Split, splitChars_ne_nil]
  simp [h]

/-- C3. With `XDG_DATA_DIRS` unset or empty, `fdoLookupXdgDataDirs` returns the
one-element list holding the empty string, not the two fallback entries
`/usr/local/share`, `/usr/share`. -/
theorem fdoLookupXdgDataDirs_unset :
    fdoLookupXdgDataDirs emptyWorld = [""]
      ∧ fdoLookupXdgDataDirs emptyWorld ≠ ["/usr/local/share", "/usr/share"] := by
  decide

/-! ## The descriptor parser -/

theorem get_one_eq_fieldValue (line : String) (h : 1 < (SplitAfter line '=').length) :
    (SplitAfter line '=').get ⟨1, h⟩ = fieldValue line := by
  simp [fieldValue, List.getD_eq_getElem?_getD, List.getElem?_eq_getElem h]

/-- The loop body of the parser, with the bounds proofs of its indexing removed. -/
theorem scanLine_eq (w : World) (theme : String) (size : Int) (st : ScanState)
    (line : String) :
    scanLine w theme size st line =
      if nextSection st.currentSection line ≠ desktopEntry then
        { st with currentSection := nextSection st.currentSection line }
      else if HasPrefix line "Name=" = true then
        { fdoApp := { st.fdoApp with name := fieldValue line },
          currentSection := nextSection st.currentSection line }
      else if HasPrefix line "Icon=" = true then
        { fdoApp := { st.fdoApp with
            iconName := fieldValue line,
            iconPath :=
              if w.Stat (fieldValue line) = StatResult.ok then fieldValue line
              else fdoLookupIconPath w theme size (fieldValue line) },
          currentSection := nextSection st.currentSection line }
      else if HasPrefix line "Exec=" = true then
        { fdoApp := { st.fdoApp with exec := fieldValue line },
          currentSection := nextSection st.currentSection line }
      else
        { st with currentSection := nextSection st.currentSection line } := by
  unfold scanLine nextSection desktopEntry
  simp only [get_one_eq_fieldValue]
  split_ifs <;> rfl

/-- C4. For the descriptor with the lines `[Desktop Entry]`, `Name=App`,
`Exec=env A=1 app`, `newFdoIconData` stores `env A=` as the exec command: the
value is cut after its own first `=`, it is not everything after the first `=`
of the line. -/
theorem newFdoIconData_value_cut_at_eq :
    newFdoIconData execWorld "T" 16 "/d/applications/app.desktop"
        = some { name := "App", iconName := "", iconPath := "", exec := "env A=" }
      ∧ Option.map fdoIconData.exec
          (newFdoIconData execWorld "T" 16 "/d/applications/app.desktop")
        ≠ some "env A=1 app" := by
  decide

/-! ### Section scoping -/

theorem HasPrefix_head (s key : String) (c : Char) (h : HasPrefix s key = true)
    (hk : key.data.head? = some c) : s.data.head? = some c := by
  unfold HasPrefix at h
  cases hkd : key.data with
  | nil => simp [hkd] at hk
  | cons k ks =>
    cases hsd : s.data with
    | nil => simp [hkd, hsd] at h
    | cons x xs =>
      rw [hkd] at hk
      rw [hkd, hsd] at h
      simp only [List.isPrefixOf, Bool.and_eq_true, beq_iff_eq] at h
      simp only [List.head?_cons, Option.some.injEq] at hk ⊢
      rw [← hk, h.1]

/-- Two keys that start with different characters are not both a prefix. -/
theorem HasPrefix_disjoint (s k1 k2 : String) (c1 c2 : Char)
    (h1 : k1.data.head? = some c1) (h2 : k2.data.head? = some c2) (hne : c1 ≠ c2)
    (h : HasPrefix s k1 = true) : HasPrefix s k2 = false := by
  cases h' : HasPrefix s k2 with
  | false => rfl
  | true =>
    have e1 := HasPrefix_head s k1 c1 h h1
    have e2 := HasPrefix_head s k2 c2 h' h2
    rw [e1] at e2
    exact absurd (Option.some.inj e2) hne

theorem isKeyLine_not_header (l : String) (h : isKeyLine l = true) :
    HasPrefix l "[" = false := by
  unfold isKeyLine at h
  simp only [Bool.or_eq_true] at h
  rcases h with (h | h) | h
  · exact HasPrefix_disjoint l "Name=" "[" 'N' '[' rfl rfl (by decide) h
  · exact HasPrefix_disjoint l "Icon=" "[" 'I' '[' rfl rfl (by decide) h
  · exact HasPrefix_disjoint l "Exec=" "[" 'E' '[' rfl rfl (by decide) h

theorem sectionOf_append_singleton (seen : List String) (l : String) :
    sectionOf (seen ++ [l]) = nextSection (sectionOf seen) l := by
  unfold sectionOf nextSection
  by_cases h : HasPrefix l "[" = true
  · simp [List.filter_append, h]
  · simp [List.filter_append, h]

/-- The loop body keeps `currentSection` equal to the last header seen. -/
theorem scanLine_currentSection (w : World) (theme : String) (size : Int) (st : ScanState)
    (l : String) :
    (scanLine w theme size st l).currentSection = nextSection st.currentSection l := by
  rw [scanLine_eq]
  split_ifs <;> rfl

/-- A key line read while the cursor is not `[Desktop Entry]` changes nothing. -/
theorem scanLine_ignored (w : World) (theme : String) (size : Int) (st : ScanState)
    (l : String) (hk : isKeyLine l = true) (hs : st.currentSection ≠ desktopEntry) :
    scanLine w theme size st l = st := by
  have hn : nextSection st.currentSection l = st.currentSection := by
    simp [nextSection, isKeyLine_not_header l hk]
  rw [scanLine_eq, hn, if_pos hs]

theorem foldl_scanLine_removeIgnored (w : World) (theme : String) (size : Int)
    (sel : Nat → Bool) (rest : List String) :
    ∀ (seen : List String) (st : ScanState), st.currentSection = sectionOf seen →
      (removeIgnored sel seen rest).foldl (scanLine w theme size) st
        = rest.foldl (scanLine w theme size) st := by
  induction rest with
  | nil => intro seen st _; rfl
  | cons l rest ih =>
    intro seen st hst
    by_cases hdel : (sel seen.length && isKeyLine l
        && decide (sectionOf seen ≠ desktopEntry)) = true
    · have hk : isKeyLine l = true := by
        simp only [Bool.and_eq_true] at hdel
        exact hdel.1.2
      have hs : st.currentSection ≠ desktopEntry := by
        simp only [Bool.and_eq_true, decide_eq_true_eq] at hdel
        rw [hst]
        exact hdel.2
      have hsame : scanLine w theme size st l = st := scanLine_ignored w theme size st l hk hs
      have hnext : st.currentSection = sectionOf (seen ++ [l]) := by
        rw [sectionOf_append_singleton, ← hst, ← scanLine_currentSection w theme size st l,
          hsame]
      simp only [removeIgnored, hdel, if_true, List.foldl_cons, hsame]
      exact ih (seen ++ [l]) st hnext
    · have hnext : (scanLine w theme size st l).currentSection = sectionOf (seen ++ [l]) := by
        rw [sectionOf_append_singleton, ← hst, scanLine_currentSection]
      simp only [removeIgnored, hdel, List.foldl_cons]
      exact ih (seen ++ [l]) (scanLine w theme size st l) hnext

/-- The scan loop does not read the contents of files. -/
theorem scanLine_withFile (w : World) (path : String) (content : ScanResult)
    (theme : String) (size : Int) :
    scanLine (w.withFile path content) theme size = scanLine w theme size := rfl

/-- The parser in a world whose file at `path` has the given lines. -/
theorem newFdoIconData_withFile (w : World) (theme : String) (size : Int) (path : String)
    (lines : List String) (readError : Bool) :
    newFdoIconData (w.withFile path (ScanResult.scanned lines readError)) theme size path
      = if readError then none
        else some (lines.foldl (scanLine w theme size)
          { fdoApp := { name := "", iconName := "", iconPath := "", exec := "" },
            currentSection := "" }).fdoApp := by
  unfold newFdoIconData
  simp [World.withFile, scanLine_withFile]
  rfl

/-- Before the first line equal to `[Desktop Entry]` the section in force is not
the desktop entry section. -/
theorem sectionOf_before_first (seen : List String) (h : desktopEntry ∉ seen) :
    sectionOf seen ≠ desktopEntry := by
  unfold sectionOf
  cases hl : (seen.filter (fun l => HasPrefix l "[")).getLast? with
  | none => simp [desktopEntry]
  | some x =>
    have hx : x ∈ seen.filter (fun l => HasPrefix l "[") := List.mem_of_getLast?_eq_some hl
    have hx2 : x ∈ seen := (List.mem_filter.mp hx).1
    intro he
    simp only [Option.getD_some] at he
    exact h (he ▸ hx2)

/-- After a line that begins with `[` and is not `[Desktop Entry]`, and as long
as no line equal to `[Desktop Entry]` follows it, the section in force is not
the desktop entry section. -/
theorem sectionOf_after_other_header (before after : List String) (hdr : String)
    (hh : HasPrefix hdr "[" = true) (hne : hdr ≠ desktopEntry)
    (hafter : desktopEntry ∉ after) :
    sectionOf (before ++ hdr :: after) ≠ desktopEntry := by
  unfold sectionOf
  cases hl : ((before ++ hdr :: after).filter (fun l => HasPrefix l "[")).getLast? with
  | none => simp [desktopEntry]
  | some x =>
    intro he
    simp only [Option.getD_some] at he
    subst he
    rw [List.filter_append, List.filter_cons_of_pos (by simpa using hh)] at hl
    rw [List.getLast?_append_cons] at hl
    have hmem := List.mem_of_getLast?_eq_some hl
    rcases List.mem_cons.mp hmem with h1 | h2
    · exact hne h1.symm
    · exact hafter (List.mem_filter.mp h2).1

/-- C5. Section scoping of the parser: deleting from a descriptor file any
selection of `Name=`, `Icon=` or `Exec=` lines that stand outside the
`[Desktop Entry]` section (the last line beginning with `[` before them is
missing or is not `[Desktop Entry]`) leaves the result of `newFdoIconData`
unchanged. -/
theorem newFdoIconData_ignores_outside_section (w : World) (theme : String) (size : Int)
    (path : String) (lines : List String) (readError : Bool) (sel : Nat → Bool) :
    newFdoIconData (w.withFile path (ScanResult.scanned (removeIgnored sel [] lines) readError))
        theme size path
      = newFdoIconData (w.withFile path (ScanResult.scanned lines readError)) theme size path := by
  rw [newFdoIconData_withFile, newFdoIconData_withFile,
    foldl_scanLine_removeIgnored w theme size sel lines [] _ rfl]

/-- The key lines of `scopedLines` outside the section are the first, the sixth
and the seventh; the descriptor parses to the record of the section lines. -/
theorem removeIgnored_scopedLines :
    removeIgnored (fun _ => true) [] scopedLines
        = ["[Desktop Entry]", "Name=One", "Exec=one", "[Desktop Action New]",
            "[Desktop Entry]", "Name=Two"]
      ∧ newFdoIconData (emptyWorld.withFile "/a.desktop"
            (ScanResult.scanned scopedLines false)) "T" 16 "/a.desktop"
        = some { name := "Two", iconName := "", iconPath := "", exec := "one" } := by
  decide

/-! ### Last key wins -/

theorem lastStoredFrom_nil (key dflt : String) : lastStoredFrom key dflt [] = dflt := rfl

theorem lastStoredFrom_cons (key dflt l : String) (ls : List String) :
    lastStoredFrom key dflt (l :: ls)
      = lastStoredFrom key (if HasPrefix l key = true then fieldValue l else dflt) ls := by
  unfold lastStoredFrom
  by_cases h : HasPrefix l key = true
  · rw [List.filter_cons_of_pos (by simpa using h), if_pos h]
    cases hf : ls.filter (fun l => HasPrefix l key) with
    | nil => simp
    | cons y ys =>
      rw [List.getLast?_cons_cons]
      cases hg : (y :: ys).getLast? with
      | none => simp at hg
      | some z => rfl
  · rw [List.filter_cons_of_neg (by simpa using h), if_neg h]

/-- The fields of the record after the loop body ran on one line. -/
theorem scanLine_fields (w : World) (theme : String) (size : Int) (st : ScanState)
    (l : String) :
    (scanLine w theme size st l).fdoApp.name
        = (if nextSection st.currentSection l = desktopEntry ∧ HasPrefix l "Name=" = true
            then fieldValue l else st.fdoApp.name)
      ∧ (scanLine w theme size st l).fdoApp.iconName
        = (if nextSection st.currentSection l = desktopEntry ∧ HasPrefix l "Icon=" = true
            then fieldValue l else st.fdoApp.iconName)
      ∧ (scanLine w theme size st l).fdoApp.exec
        = (if nextSection st.currentSection l = desktopEntry ∧ HasPrefix l "Exec=" = true
            then fieldValue l else st.fdoApp.exec) := by
  rw [scanLine_eq]
  by_cases hs : nextSection st.currentSection l = desktopEntry
  · by_cases hn : HasPrefix l "Name=" = true
    · have hi := HasPrefix_disjoint l "Name=" "Icon=" 'N' 'I' rfl rfl (by decide) hn
      have he := HasPrefix_disjoint l "Name=" "Exec=" 'N' 'E' rfl rfl (by decide) hn
      simp [hs, hn, hi, he]
    · by_cases hi : HasPrefix l "Icon=" = true
      · have he := HasPrefix_disjoint l "Icon=" "Exec=" 'I' 'E' rfl rfl (by decide) hi
        simp [hs, hn, hi, he]
      · by_cases he : HasPrefix l "Exec=" = true
        · simp [hs, hn, hi, he]
        · simp [hs, hn, hi, he]
  · simp [hs]

theorem foldl_scanLine_fields (w : World) (theme : String) (size : Int) (rest : List String) :
    ∀ (seen : List String) (st : ScanState), st.currentSection = sectionOf seen →
      (rest.foldl (scanLine w theme size) st).fdoApp.name
          = lastStoredFrom "Name=" st.fdoApp.name (sectionLines seen rest)
        ∧ (rest.foldl (scanLine w theme size) st).fdoApp.iconName
          = lastStoredFrom "Icon=" st.fdoApp.iconName (sectionLines seen rest)
        ∧ (rest.foldl (scanLine w theme size) st).fdoApp.exec
          = lastStoredFrom "Exec=" st.fdoApp.exec (sectionLines seen rest) := by
  induction rest with
  | nil => intro seen st _; exact ⟨rfl, rfl, rfl⟩
  | cons l rest ih =>
    intro seen st hst
    have hnext : (scanLine w theme size st l).currentSection = sectionOf (seen ++ [l]) := by
      rw [sectionOf_append_singleton, ← hst, scanLine_currentSection]
    have hsec : sectionOf (seen ++ [l]) = nextSection st.currentSection l := by
      rw [sectionOf_append_singleton, ← hst]
    obtain ⟨h1, h2, h3⟩ := ih (seen ++ [l]) (scanLine w theme size st l) hnext
    obtain ⟨f1, f2, f3⟩ := scanLine_fields w theme size st l
    simp only [List.foldl_cons, sectionLines]
    rw [h1, h2, h3, f1, f2, f3, hsec]
    by_cases hs : nextSection st.currentSection l = desktopEntry
    · simp only [hs, true_and, if_true, lastStoredFrom_cons]
    · simp only [hs, false_and, if_false]
      exact ⟨trivial, trivial, trivial⟩

/-- For a descriptor file that is read to its end, the `name`, `iconName` and
`exec` fields of the record are the pieces the parser stores for the last
`Name=`, `Icon=` and `Exec=` line inside the `[Desktop Entry]` section, and the
empty string when there is no such line. -/
theorem newFdoIconData_last_key_stored (w : World) (theme : String) (size : Int)
    (path : String) (lines : List String)
    (hscan : w.Scan path = ScanResult.scanned lines false) :
    ∃ d : fdoIconData, newFdoIconData w theme size path = some d
      ∧ d.name = lastStoredFrom "Name=" "" (sectionLines [] lines)
      ∧ d.iconName = lastStoredFrom "Icon=" "" (sectionLines [] lines)
      ∧ d.exec = lastStoredFrom "Exec=" "" (sectionLines [] lines) := by
  have h := foldl_scanLine_fields w theme size lines []
    { fdoApp := { name := "", iconName := "", iconPath := "", exec := "" },
      currentSection := "" } rfl
  refine ⟨_, ?_, h.1, h.2.1, h.2.2⟩
  unfold newFdoIconData
  rw [hscan]
  rfl

/-- Two `Name=` and two `Exec=` lines in the section give the second value of
each, no `Icon=` line in the section gives the empty string, and the lines of
the other section do not count. -/
theorem newFdoIconData_last_key_stored_twoNamesWorld :
    ∃ d : fdoIconData,
      newFdoIconData twoNamesWorld "T" 16 "/d/applications/two.desktop" = some d
      ∧ d.name = "Second" ∧ d.iconName = "" ∧ d.exec = "second" := by
  obtain ⟨d, hd, h1, h2, h3⟩ := newFdoIconData_last_key_stored twoNamesWorld "T" 16
    "/d/applications/two.desktop"
    ["[Desktop Entry]", "Name=First", "Exec=first", "Name=Second",
      "Exec=second", "[Desktop Action New]", "Name=Third", "Icon=third"] (by decide)
  refine ⟨d, hd, ?_, ?_, ?_⟩
  · rw [h1]; decide
  · rw [h2]; decide
  · rw [h3]; decide

theorem splitAfterChars_no_sep (c : Char) (l : List Char) (h : c ∉ l) :
    splitAfterChars c l = [l] := by
  induction l with
  | nil => rfl
  | cons x xs ih =>
    have hx : x ≠ c := fun e => h (e ▸ List.mem_cons_self x xs)
    have hxs : c ∉ xs := fun m => h (List.mem_cons_of_mem x m)
    simp [splitAfterChars, hx, ih hxs]

theorem splitAfterChars_append_sep (c : Char) (a b : List Char) (h : c ∉ a) :
    splitAfterChars c (a ++ c :: b) = (a ++ [c]) :: splitAfterChars c b := by
  induction a with
  | nil => simp [splitAfterChars]
  | cons x xs ih =>
    have hx : x ≠ c := fun e => h (e ▸ List.mem_cons_self x xs)
    have hxs : c ∉ xs := fun m => h (List.mem_cons_of_mem x m)
    simp [splitAfterChars, hx, ih hxs]

/-- A value without `=` is stored whole: for a line made of a key without `=`,
of `=` and of a value without `=`, the stored piece is the value. -/
theorem fieldValue_of_no_eq (key value : String) (hk : '=' ∉ key.data)
    (hv : '=' ∉ value.data) :
    fieldValue (key ++ "=" ++ value) = value := by
  have hd : (key ++ "=" ++ value).data = key.data ++ '=' :: value.data := by
    simp [String.data_append]
  simp [fieldValue, SplitAfter, hd, splitAfterChars_append_sep '=' _ _ hk,
    splitAfterChars_no_sep '=' _ hv]

/-! ## The application lookup -/

/-- The parser reads the file at its path only: a world that differs in the
contents of other files gives the same record. -/
theorem newFdoIconData_congr_Scan (w : World) (scan : String → ScanResult) (theme : String)
    (size : Int) (path : String) (h : scan path = w.Scan path) :
    newFdoIconData { w with Scan := scan } theme size path
      = newFdoIconData w theme size path := by
  unfold newFdoIconData
  simp only [h]
  rfl

theorem fdoLookupApplication_of_exact (w : World) (theme : String) (size : Int)
    (appName : String) (pre post : List String) (d : String)
    (hdirs : fdoLookupXdgDataDirs w = pre ++ d :: post)
    (hpre : ∀ e ∈ pre, w.Stat (exactPath appName e) ≠ StatResult.ok)
    (hd : w.Stat (exactPath appName d) = StatResult.ok) :
    fdoLookupApplication w theme size appName
      = IconData.fdo (newFdoIconData w theme size (exactPath appName d)) := by
  have hpre2 : ∀ q ∈ pre.map (exactPath appName), w.Stat q ≠ StatResult.ok := by
    intro q hq
    obtain ⟨e, he, rfl⟩ := List.mem_map.mp hq
    exact hpre e he
  have hfirst := firstStat_append_hit w (pre.map (exactPath appName))
    (post.map (exactPath appName)) (exactPath appName d) hpre2 hd
  unfold fdoLookupApplication
  simp only [hdirs, List.map_append, List.map_cons]
  unfold exactPath at hfirst
  rw [hfirst]
  rfl

/-- C7. Exact-name precedence in `fdoLookupApplication`: when
`<d>/applications/<name>.desktop` exists for the data directory `d` and for none
before it in the list, the result is the descriptor parsed from that file, and
it is the same in every world that differs only in the contents of other files:
the metadata scan is not consulted. -/
theorem fdoLookupApplication_exact_name_first (w : World) (theme : String) (size : Int)
    (appName : String) (pre post : List String) (d : String)
    (hdirs : fdoLookupXdgDataDirs w = pre ++ d :: post)
    (hpre : ∀ e ∈ pre, w.Stat (Join [e, "applications", appName ++ ".desktop"]) ≠ StatResult.ok)
    (hd : w.Stat (Join [d, "applications", appName ++ ".desktop"]) = StatResult.ok) :
    fdoLookupApplication w theme size appName
        = IconData.fdo (newFdoIconData w theme size
            (Join [d, "applications", appName ++ ".desktop"]))
      ∧ ∀ scan : String → ScanResult,
          scan (Join [d, "applications", appName ++ ".desktop"])
            = w.Scan (Join [d, "applications", appName ++ ".desktop"]) →
          fdoLookupApplication { w with Scan := scan } theme size appName
            = fdoLookupApplication w theme size appName := by
  have h1 := fdoLookupApplication_of_exact w theme size appName pre post d hdirs hpre hd
  refine ⟨h1, ?_⟩
  intro scan hscan
  have h2 := fdoLookupApplication_of_exact { w with Scan := scan } theme size appName
    pre post d hdirs hpre hd
  rw [h1, h2]
  exact congrArg IconData.fdo (newFdoIconData_congr_Scan w scan theme size _ hscan)

/-- Witness of C7 in `exactWorld`: `xterm.desktop` of `/d2` is returned, not the
descriptor of `/d1` whose display name is `xterm`. -/
theorem fdoLookupApplication_exact_name_first_witness :
    fdoLookupApplication exactWorld "T" 16 "xterm"
      = IconData.fdo (some { name := "XTerm", iconName := "", iconPath := "", exec := "xterm" }) :=
  (fdoLookupApplication_exact_name_first exactWorld "T" 16 "xterm" ["/d1"] [] "/d2"
    (by decide) (by decide) (by decide)).1.trans (by decide)

/-! ### Lookup by window -/

theorem winInfoClasses_eq_find (w : World) (theme : String) (size : Int)
    (classes : List String) :
    winInfoClasses w theme size classes
      = (classes.map (fdoLookupApplication w theme size)).find? (fun icon => !icon.isNil) := by
  induction classes with
  | nil => rfl
  | cons c cs ih =>
    cases hc : fdoLookupApplication w theme size c with
    | nil => simp [winInfoClasses, hc, ih, IconData.isNil]
    | fdo data => simp [winInfoClasses, hc, IconData.isNil]

/-- The order of the lookup by window: `fdoLookupApplicationWinInfo` returns
the first result for which Go's test `icon != nil` on the interface value
holds, among the exact lookups by title, by each class name in the declared
order, by command and by icon-name hint, and the nil interface value when the
test fails for all of them.  A nil record inside an interface value passes
that test. -/
theorem fdoLookupApplicationWinInfo_first_non_nil (w : World) (theme : String) (size : Int)
    (win : Window) :
    fdoLookupApplicationWinInfo w theme size win
      = (((win.Title :: win.Class ++ [win.Command, win.IconName]).map
            (fdoLookupApplication w theme size)).find? (fun icon => !icon.isNil)).getD
          IconData.nil := by
  unfold fdoLookupApplicationWinInfo
  rw [winInfoClasses_eq_find]
  simp only [List.map_cons, List.map_append, List.find?_cons, List.find?_append, List.map_nil,
    List.find?_nil]
  cases ht : fdoLookupApplication w theme size win.Title with
  | fdo data => simp [IconData.isNil]
  | nil =>
    cases hcl : (win.Class.map (fdoLookupApplication w theme size)).find?
        (fun icon => !icon.isNil) with
    | some icon => simp [IconData.isNil]
    | none =>
      cases hcmd : fdoLookupApplication w theme size win.Command with
      | fdo data => simp [IconData.isNil]
      | nil =>
        cases hin : fdoLookupApplication w theme size win.IconName <;> simp [IconData.isNil]

/-- When the lookup by title is nil and the lookup by the first class name is
not, the result is the latter, whatever the command and the icon-name hint are. -/
theorem fdoLookupApplicationWinInfo_first_class (w : World) (theme : String) (size : Int)
    (title cls command iconName : String) (classes : List String)
    (ht : fdoLookupApplication w theme size title = IconData.nil)
    (hc : fdoLookupApplication w theme size cls ≠ IconData.nil) :
    fdoLookupApplicationWinInfo w theme size
        { Title := title, Class := cls :: classes, Command := command, IconName := iconName }
      = fdoLookupApplication w theme size cls := by
  unfold fdoLookupApplicationWinInfo
  simp [ht, winInfoClasses, hc]

/-! ### The metadata scan -/

/-- C9. In `unreadableWorld` the unreadable `a.desktop` precedes the readable
`b.desktop` whose display name is `foo`; `fdoLookupApplicationByMetadata` for
`foo` stops at `a.desktop` and returns its nil record, not the descriptor of
`b.desktop`. -/
theorem fdoLookupApplicationByMetadata_stops_at_unreadable :
    newFdoIconData unreadableWorld "T" 16 "/d/applications/b.desktop"
        = some { name := "foo", iconName := "", iconPath := "", exec := "/usr/bin/foo" }
      ∧ fdoLookupApplicationByMetadata unreadableWorld "T" 16 "foo" = IconData.fdo none
      ∧ fdoLookupApplicationByMetadata unreadableWorld "T" 16 "foo"
        ≠ IconData.fdo (newFdoIconData unreadableWorld "T" 16 "/d/applications/b.desktop") := by
  decide

theorem metadataFiles_eq_firstMatching (w : World) (theme : String) (size : Int)
    (appName testLocation : String) (files : List FileInfo)
    (hparse : ∀ f ∈ files, (HasPrefix f.Name "." || f.IsDir) = false →
      newFdoIconData w theme size (Join [testLocation, f.Name]) ≠ none) :
    metadataFiles w theme size appName testLocation files
      = (firstMatching w theme size appName
          ((files.filter (fun f => !(HasPrefix f.Name "." || f.IsDir))).map
            (fun f => Join [testLocation, f.Name]))).map (fun d => IconData.fdo (some d)) := by
  induction files with
  | nil => rfl
  | cons f files ih =>
    have ih2 := ih (fun g hg => hparse g (List.mem_cons_of_mem f hg))
    by_cases hskip : (HasPrefix f.Name "." || f.IsDir) = true
    · simp only [metadataFiles, hskip, if_true, ih2]
      rw [List.filter_cons_of_neg (by simp [hskip])]
    · have hskip2 : (HasPrefix f.Name "." || f.IsDir) = false := by simpa using hskip
      have hp := hparse f (List.mem_cons_self f files) hskip2
      cases hn : newFdoIconData w theme size (Join [testLocation, f.Name]) with
      | none => exact absurd hn hp
      | some icon =>
        rw [List.filter_cons_of_pos (by simp [hskip2])]
        simp only [metadataFiles, hskip2, hn, List.map_cons, firstMatching,
          List.filterMap_cons, List.find?_cons]
        by_cases hm : icon.name = appName ∨ icon.exec = appName
        · simp [hm]
        · simp only [hm, if_false, decide_False]
          rw [ih2]
          rfl

theorem metadataDirs_eq_firstMatching (w : World) (theme : String) (size : Int)
    (appName : String) (dirs : List String)
    (hparse : ∀ p ∈ dirs.flatMap (applicationEntries w), newFdoIconData w theme size p ≠ none) :
    metadataDirs w theme size appName dirs
      = match firstMatching w theme size appName (dirs.flatMap (applicationEntries w)) with
        | some d => IconData.fdo (some d)
        | none => IconData.nil := by
  induction dirs with
  | nil => rfl
  | cons dataDir rest ih =>
    have hrest : ∀ p ∈ rest.flatMap (applicationEntries w),
        newFdoIconData w theme size p ≠ none := by
      intro p hp
      apply hparse
      simp only [List.flatMap_cons, List.mem_append]
      exact Or.inr hp
    have hhere : ∀ p ∈ applicationEntries w dataDir, newFdoIconData w theme size p ≠ none := by
      intro p hp
      apply hparse
      simp only [List.flatMap_cons, List.mem_append]
      exact Or.inl hp
    rw [metadataDirs, ih hrest]
    simp only [List.flatMap_cons, firstMatching, List.filterMap_append, List.find?_append]
    cases hr : w.ReadDir (Join [dataDir, "applications"]) with
    | none => simp [applicationEntries, hr]
    | some files =>
      have hfiles : ∀ f ∈ files, (HasPrefix f.Name "." || f.IsDir) = false →
          newFdoIconData w theme size (Join [Join [dataDir, "applications"], f.Name]) ≠ none := by
        intro f hf hskip
        apply hhere
        simp only [applicationEntries, hr, List.mem_map, List.mem_filter]
        exact ⟨f, ⟨hf, by simp [hskip]⟩, rfl⟩
      dsimp only
      rw [metadataFiles_eq_firstMatching w theme size appName _ files hfiles]
      simp only [applicationEntries, hr, firstMatching]
      cases hfind : (List.filterMap (newFdoIconData w theme size)
          ((files.filter (fun f => !(HasPrefix f.Name "." || f.IsDir))).map
            (fun f => Join [Join [dataDir, "applications"], f.Name]))).find?
          (fun d => decide (d.name = appName ∨ d.exec = appName)) with
      | some d => simp
      | none => simp

/-- C10. Metadata scan result: when every entry of the `applications`
directories that is not hidden and not a directory parses successfully,
`fdoLookupApplicationByMetadata` returns the record of the first of these
entries, in data-directory order then listing order, whose display name or exec
command equals the requested name, and the nil interface value when there is
none; hidden entries, directories and unlistable `applications` directories
contribute no entry. -/
theorem fdoLookupApplicationByMetadata_first_match (w : World) (theme : String) (size : Int)
    (appName : String)
    (hparse : ∀ p ∈ applicationFiles w, newFdoIconData w theme size p ≠ none) :
    fdoLookupApplicationByMetadata w theme size appName
      = match firstMatching w theme size appName (applicationFiles w) with
        | some d => IconData.fdo (some d)
        | none => IconData.nil :=
  metadataDirs_eq_firstMatching w theme size appName (fdoLookupXdgDataDirs w) hparse

/-- Witness of C10 in `scanWorld`: the entries parsed are `bar.desktop` of
`/d1`, then `f1.desktop` and `f2.desktop` of `/d2`; for `foo` the record of
`f1.desktop` is returned. -/
theorem fdoLookupApplicationByMetadata_first_match_witness :
    applicationFiles scanWorld
        = ["/d1/applications/bar.desktop", "/d2/applications/f1.desktop",
            "/d2/applications/f2.desktop"]
      ∧ fdoLookupApplicationByMetadata scanWorld "T" 16 "foo"
        = IconData.fdo (some { name := "Foo One", iconName := "", iconPath := "", exec := "foo" }) :=
  ⟨by decide,
    (fdoLookupApplicationByMetadata_first_match scanWorld "T" 16 "foo" (by decide)).trans
      (by decide)⟩

/-! ### The partial lookup -/

theorem matchingFiles_eq_filter (lower : Char → Char) (w : World) (theme : String)
    (size : Int) (appName testLocation : String) (files : List FileInfo) :
    ∀ icons : List IconData,
      matchingFiles lower w theme size appName testLocation icons files
        = icons ++ ((((files.filter (fun f => !(HasPrefix f.Name "." || f.IsDir))).map
            (fun f => Join [testLocation, f.Name])).filterMap
              (newFdoIconData w theme size)).filter (matchesFragment lower appName)).map
            (fun d => IconData.fdo (some d)) := by
  induction files with
  | nil => intro icons; simp [matchingFiles]
  | cons f files ih =>
    intro icons
    by_cases hskip : (HasPrefix f.Name "." || f.IsDir) = true
    · rw [matchingFiles, if_pos hskip, ih, List.filter_cons_of_neg (by simp [hskip])]
    · have hskip2 : (HasPrefix f.Name "." || f.IsDir) = false := by simpa using hskip
      rw [matchingFiles, if_neg hskip, List.filter_cons_of_pos (by simp [hskip2])]
      cases hn : newFdoIconData w theme size (Join [testLocation, f.Name]) with
      | none => simp [hn, ih]
      | some icon =>
        by_cases hm : matchesFragment lower appName icon = true
        · have hm2 := hm
          unfold matchesFragment at hm2
          simp [hn, hm2, hm, ih]
        · have hm2 := hm
          unfold matchesFragment at hm2
          simp [hn, hm2, hm, ih]

theorem matchingDirs_eq_filter (lower : Char → Char) (w : World) (theme : String)
    (size : Int) (appName : String) (dirs : List String) :
    ∀ icons : List IconData,
      matchingDirs lower w theme size appName icons dirs
        = icons ++ (((dirs.flatMap (applicationEntries w)).filterMap
              (newFdoIconData w theme size)).filter (matchesFragment lower appName)).map
            (fun d => IconData.fdo (some d)) := by
  induction dirs with
  | nil => intro icons; simp [matchingDirs]
  | cons dataDir rest ih =>
    intro icons
    rw [matchingDirs]
    cases hr : w.ReadDir (Join [dataDir, "applications"]) with
    | none => simp [ih, applicationEntries, hr]
    | some files =>
      simp [ih, matchingFiles_eq_filter, applicationEntries, hr]

/-- C11. Partial lookup equals a filter: `fdoLookupApplicationMatching` returns
the list, in data-directory order then listing order, of the records of all
entries of the `applications` directories that are not hidden, not directories
and parse successfully, and whose lower-cased display name or lower-cased exec
command contains the lower-cased fragment; nothing else is dropped or added. -/
theorem fdoLookupApplicationMatching_eq_filter (lower : Char → Char) (w : World)
    (theme : String) (size : Int) (fragment : String) :
    fdoLookupApplicationMatching lower w theme size fragment
      = ((((applicationFiles w).filterMap (newFdoIconData w theme size)).filter
            (fun d => Contains (ToLower lower d.name) (ToLower lower fragment)
              || Contains (ToLower lower d.exec) (ToLower lower fragment))).map
          (fun d => IconData.fdo (some d))) := by
  unfold fdoLookupApplicationMatching applicationFiles
  rw [matchingDirs_eq_filter]
  rfl

/-- In `matchingWorld` the fragment `FO` gives the record of `Foo` twice, once
per data directory and once per file although both fields match; the unreadable
descriptor and the one of `Vim` are left out. -/
theorem fdoLookupApplicationMatching_matchingWorld :
    fdoLookupApplicationMatching Char.toLower matchingWorld "T" 16 "FO"
      = [ IconData.fdo (some { name := "Foo", iconName := "", iconPath := "", exec := "foo" }),
          IconData.fdo (some { name := "Foo", iconName := "", iconPath := "", exec := "foo" }) ] := by
  decide

/-! ### The pixmaps tier and the empty result -/

theorem firstStat_eq_none (w : World) (paths : List String)
    (h : ∀ q ∈ paths, w.Stat q ≠ StatResult.ok) : firstStat w paths = none := by
  unfold firstStat
  rw [List.find?_eq_none]
  intro q hq
  simpa using h q hq

theorem firstNonEmpty_eq_none {α : Type} (f : α → String) (l : List α)
    (h : ∀ e ∈ l, f e = "") : firstNonEmpty f l = none := by
  induction l with
  | nil => rfl
  | cons e es ih =>
    have he : f e = "" := h e (List.mem_cons_self e es)
    simp [firstNonEmpty, he, ih (fun r hr => h r (List.mem_cons_of_mem e hr))]

/-- C12. Pixmaps tier: when the per-theme search misses for the named theme and
for hicolor in every data directory, and `d` is the first data directory with
`<d>/pixmaps/<name>.png` or `<d>/pixmaps/<name>.svg`, `fdoLookupIconPath` returns
that path of `d`, the `.png` one when it exists, whatever the other themes
contain. -/
theorem fdoLookupIconPath_pixmaps_tier (w : World) (theme : String) (size : Int)
    (iconName : String) (pre post : List String) (d : String)
    (hdirs : fdoLookupXdgDataDirs w = pre ++ d :: post)
    (hthemes : ∀ e ∈ fdoLookupXdgDataDirs w,
      lookupIconPathInTheme w (toString size) (Join [e, "icons", theme]) iconName = ""
        ∧ lookupIconPathInTheme w (toString size) (Join [e, "icons", "hicolor"]) iconName = "")
    (hpre : ∀ e ∈ pre,
      w.Stat (Join [e, "pixmaps", iconName ++ ".png"]) ≠ StatResult.ok
        ∧ w.Stat (Join [e, "pixmaps", iconName ++ ".svg"]) ≠ StatResult.ok)
    (hd : w.Stat (Join [d, "pixmaps", iconName ++ ".png"]) = StatResult.ok
      ∨ w.Stat (Join [d, "pixmaps", iconName ++ ".svg"]) = StatResult.ok) :
    fdoLookupIconPath w theme size iconName
      = if w.Stat (Join [d, "pixmaps", iconName ++ ".png"]) = StatResult.ok
        then Join [d, "pixmaps", iconName ++ ".png"]
        else Join [d, "pixmaps", iconName ++ ".svg"] := by
  have h1 := firstNonEmpty_eq_none
    (fun dataDir => lookupIconPathInTheme w (toString size) (Join [dataDir, "icons", theme])
      iconName) (fdoLookupXdgDataDirs w) (fun e he => (hthemes e he).1)
  have h2 := firstNonEmpty_eq_none
    (fun dataDir => lookupIconPathInTheme w (toString size) (Join [dataDir, "icons", "hicolor"])
      iconName) (fdoLookupXdgDataDirs w) (fun e he => (hthemes e he).2)
  have hprec : ∀ q ∈ pre.flatMap (fun dataDir =>
      [Join [dataDir, "pixmaps", iconName ++ ".png"],
        Join [dataDir, "pixmaps", iconName ++ ".svg"]]),
      w.Stat q ≠ StatResult.ok := by
    intro q hq
    simp only [List.mem_flatMap, List.mem_cons, List.mem_singleton, List.not_mem_nil,
      or_false] at hq
    obtain ⟨e, he, rfl | rfl⟩ := hq
    · exact (hpre e he).1
    · exact (hpre e he).2
  unfold fdoLookupIconPath
  simp only [h1, h2]
  rw [hdirs, List.flatMap_append, List.flatMap_cons]
  simp only [iconExtensions, List.map_cons, List.map_nil, List.cons_append, List.nil_append]
  by_cases hpng : w.Stat (Join [d, "pixmaps", iconName ++ ".png"]) = StatResult.ok
  · rw [if_pos hpng, firstStat_append_hit w _ _ _ hprec hpng]
  · rw [if_neg hpng]
    have hsvg : w.Stat (Join [d, "pixmaps", iconName ++ ".svg"]) = StatResult.ok :=
      hd.resolve_left hpng
    have hprec2 : ∀ q ∈ pre.flatMap (fun dataDir =>
        [Join [dataDir, "pixmaps", iconName ++ ".png"],
          Join [dataDir, "pixmaps", iconName ++ ".svg"]])
        ++ [Join [d, "pixmaps", iconName ++ ".png"]], w.Stat q ≠ StatResult.ok := by
      intro q hq
      rcases List.mem_append.mp hq with h | h
      · exact hprec q h
      · rw [List.mem_singleton.mp h]; exact hpng
    have := firstStat_append_hit w _ (post.flatMap (fun dataDir =>
      [Join [dataDir, "pixmaps", iconName ++ ".png"],
        Join [dataDir, "pixmaps", iconName ++ ".svg"]])) _ hprec2 hsvg
    simp only [List.cons_append, List.nil_append, List.append_assoc] at this
    rw [this]

/-- Witness of C12 in `pixmapsWorld`: no theme of `/d1` or `/d2` is the named
one or hicolor, `/d2/pixmaps/x.svg` is the first pixmaps file, and it is
returned although the theme `Other` of `/d1` holds the icon. -/
theorem fdoLookupIconPath_pixmaps_tier_witness :
    fdoLookupIconPath pixmapsWorld "T" 16 "x" = "/d2/pixmaps/x.svg" :=
  (fdoLookupIconPath_pixmaps_tier pixmapsWorld "T" 16 "x" ["/d1"] [] "/d2"
    (by decide) (by decide) (by decide) (by decide)).trans (by decide)

/-- C15. Not found is an empty result: when the per-theme search misses for the
named theme, for hicolor and for every theme directory listed under
`<d>/icons` that is not hidden, in every data directory `d`, and no
`<d>/pixmaps/<name>.png` or `.svg` exists, `fdoLookupIconPath` returns the
empty string. -/
theorem fdoLookupIconPath_not_found (w : World) (theme : String) (size : Int)
    (iconName : String)
    (hthemes : ∀ e ∈ fdoLookupXdgDataDirs w,
      lookupIconPathInTheme w (toString size) (Join [e, "icons", theme]) iconName = ""
        ∧ lookupIconPathInTheme w (toString size) (Join [e, "icons", "hicolor"]) iconName = "")
    (hpix : ∀ e ∈ fdoLookupXdgDataDirs w,
      w.Stat (Join [e, "pixmaps", iconName ++ ".png"]) ≠ StatResult.ok
        ∧ w.Stat (Join [e, "pixmaps", iconName ++ ".svg"]) ≠ StatResult.ok)
    (hall : ∀ e ∈ fdoLookupXdgDataDirs w, ∀ files : List FileInfo,
      w.ReadDir (Join [e, "icons"]) = some files →
      ∀ f ∈ files, HasPrefix f.Name "." = false → f.IsDir = true →
        lookupIconPathInTheme w (toString size) (Join [e, "icons", f.Name]) iconName = "") :
    fdoLookupIconPath w theme size iconName = "" := by
  have h1 := firstNonEmpty_eq_none
    (fun dataDir => lookupIconPathInTheme w (toString size) (Join [dataDir, "icons", theme])
      iconName) (fdoLookupXdgDataDirs w) (fun e he => (hthemes e he).1)
  have h2 := firstNonEmpty_eq_none
    (fun dataDir => lookupIconPathInTheme w (toString size) (Join [dataDir, "icons", "hicolor"])
      iconName) (fdoLookupXdgDataDirs w) (fun e he => (hthemes e he).2)
  have h3 : firstStat w ((fdoLookupXdgDataDirs w).flatMap (fun dataDir =>
      iconExtensions.map (fun extension =>
        Join [dataDir, "pixmaps", iconName ++ extension]))) = none := by
    apply firstStat_eq_none
    intro q hq
    simp only [iconExtensions, List.map_cons, List.map_nil, List.mem_flatMap, List.mem_cons,
      List.mem_singleton, List.not_mem_nil, or_false] at hq
    obtain ⟨e, he, rfl | rfl⟩ := hq
    · exact (hpix e he).1
    · exact (hpix e he).2
  have h4 : firstNonEmpty (fun dir => lookupIconPathInTheme w (toString size) dir iconName)
      ((fdoLookupXdgDataDirs w).flatMap (themeDirs w)) = none := by
    apply firstNonEmpty_eq_none
    intro dir hdir
    obtain ⟨e, he, hmem⟩ := List.mem_flatMap.mp hdir
    unfold themeDirs at hmem
    cases hr : w.ReadDir (Join [e, "icons"]) with
    | none => simp [hr] at hmem
    | some files =>
      simp only [hr, List.mem_map, List.mem_filter] at hmem
      obtain ⟨f, ⟨hf, hkeep⟩, rfl⟩ := hmem
      simp only [Bool.not_eq_true', Bool.or_eq_false_iff, Bool.not_eq_false'] at hkeep
      exact hall e he files hr f hf hkeep.1 hkeep.2
  unfold fdoLookupIconPath
  simp only [h1, h2, h3, h4]

/-- Witness of C15 in `pixmapsWorld`: the icon `y` is in no theme and in no
pixmaps directory, the `icons` directory of `/d2` cannot be listed, and the
result is the empty string. -/
theorem fdoLookupIconPath_not_found_witness :
    fdoLookupIconPath pixmapsWorld "T" 16 "y" = "" :=
  fdoLookupIconPath_not_found pixmapsWorld "T" 16 "y" (by decide) (by decide) (by decide)

/-! ### The icon of a descriptor -/

theorem lastIconPathFrom_cons (w : World) (theme : String) (size : Int) (dflt l : String)
    (ls : List String) :
    lastIconPathFrom w theme size dflt (l :: ls)
      = lastIconPathFrom w theme size
          (if HasPrefix l "Icon=" = true then resolvedIconPath w theme size (fieldValue l)
            else dflt) ls := by
  unfold lastIconPathFrom
  by_cases h : HasPrefix l "Icon=" = true
  · rw [List.filter_cons_of_pos (by simpa using h), if_pos h]
    cases hf : ls.filter (fun l => HasPrefix l "Icon=") with
    | nil => simp
    | cons y ys =>
      rw [List.getLast?_cons_cons]
      cases hg : (y :: ys).getLast? with
      | none => simp at hg
      | some z => rfl
  · rw [List.filter_cons_of_neg (by simpa using h), if_neg h]

theorem scanLine_iconPath (w : World) (theme : String) (size : Int) (st : ScanState)
    (l : String) :
    (scanLine w theme size st l).fdoApp.iconPath
      = (if nextSection st.currentSection l = desktopEntry ∧ HasPrefix l "Icon=" = true
          then resolvedIconPath w theme size (fieldValue l) else st.fdoApp.iconPath) := by
  rw [scanLine_eq]
  unfold resolvedIconPath
  by_cases hs : nextSection st.currentSection l = desktopEntry
  · by_cases hn : HasPrefix l "Name=" = true
    · have hi := HasPrefix_disjoint l "Name=" "Icon=" 'N' 'I' rfl rfl (by decide) hn
      simp [hs, hn, hi]
    · by_cases hi : HasPrefix l "Icon=" = true
      · simp [hs, hn, hi]
      · by_cases he : HasPrefix l "Exec=" = true
        · simp [hs, hn, hi, he]
        · simp [hs, hn, hi, he]
  · simp [hs]

theorem foldl_scanLine_iconPath (w : World) (theme : String) (size : Int)
    (rest : List String) :
    ∀ (seen : List String) (st : ScanState), st.currentSection = sectionOf seen →
      (rest.foldl (scanLine w theme size) st).fdoApp.iconPath
        = lastIconPathFrom w theme size st.fdoApp.iconPath (sectionLines seen rest) := by
  induction rest with
  | nil => intro seen st _; rfl
  | cons l rest ih =>
    intro seen st hst
    have hnext : (scanLine w theme size st l).currentSection = sectionOf (seen ++ [l]) := by
      rw [sectionOf_append_singleton, ← hst, scanLine_currentSection]
    have hsec : sectionOf (seen ++ [l]) = nextSection st.currentSection l := by
      rw [sectionOf_append_singleton, ← hst]
    simp only [List.foldl_cons, sectionLines]
    rw [ih (seen ++ [l]) (scanLine w theme size st l) hnext, scanLine_iconPath, hsec]
    by_cases hs : nextSection st.currentSection l = desktopEntry
    · simp only [hs, true_and, if_true, lastIconPathFrom_cons]
    · simp only [hs, false_and, if_false]

/-- For a descriptor file read to its end whose last `Icon=` line of the
`[Desktop Entry]` section is `l`, the record returned is not nil, its
`iconName` is the piece `v` the parser stores for `l`, and its `iconPath` is
`v` when `v` is an existing path and `fdoLookupIconPath theme size v`
otherwise, empty when that finds nothing. -/
theorem newFdoIconData_icon_stored (w : World) (theme : String) (size : Int)
    (path : String) (lines : List String) (l : String)
    (hscan : w.Scan path = ScanResult.scanned lines false)
    (hlast : lastKeyLine "Icon=" lines = some l) :
    ∃ d : fdoIconData, newFdoIconData w theme size path = some d
      ∧ d.iconName = fieldValue l
      ∧ d.iconPath = (if w.Stat (fieldValue l) = StatResult.ok then fieldValue l
          else fdoLookupIconPath w theme size (fieldValue l)) := by
  have hf := foldl_scanLine_fields w theme size lines []
    { fdoApp := { name := "", iconName := "", iconPath := "", exec := "" },
      currentSection := "" } rfl
  have hp := foldl_scanLine_iconPath w theme size lines []
    { fdoApp := { name := "", iconName := "", iconPath := "", exec := "" },
      currentSection := "" } rfl
  unfold lastKeyLine at hlast
  refine ⟨(lines.foldl (scanLine w theme size)
    { fdoApp := { name := "", iconName := "", iconPath := "", exec := "" },
      currentSection := "" }).fdoApp, ?_, ?_, ?_⟩
  · unfold newFdoIconData
    rw [hscan]
    rfl
  · rw [hf.2.1]
    unfold lastStoredFrom
    rw [hlast]
  · rw [hp]
    unfold lastIconPathFrom
    rw [hlast]
    rfl

/-- In `iconValueWorld` the last `Icon=` line of `app.desktop` is `Icon=app`,
which is no existing path, and the icon path is the file the resolver finds in
the theme. -/
theorem newFdoIconData_icon_stored_iconValueWorld :
    ∃ d : fdoIconData,
      newFdoIconData iconValueWorld "T" 16 "/d/applications/app.desktop" = some d
      ∧ d.iconName = "app" ∧ d.iconPath = "/d/icons/T/16/apps/app.png" := by
  obtain ⟨d, hd, h1, h2⟩ := newFdoIconData_icon_stored iconValueWorld "T" 16
    "/d/applications/app.desktop"
    ["[Desktop Entry]", "Icon=/opt/app.png", "Name=App", "Icon=app"] "Icon=app"
    (by decide) (by decide)
  refine ⟨d, hd, ?_, ?_⟩
  · rw [h1]; decide
  · rw [h2]; decide

/-- An icon value that is an existing path is stored as the icon path, and an
icon that is found nowhere leaves the icon path empty in a record that is not
nil. -/
theorem newFdoIconData_iconValueWorld :
    newFdoIconData iconValueWorld "T" 16 "/d/applications/path.desktop"
        = some { name := "", iconName := "/opt/app.png", iconPath := "/opt/app.png", exec := "" }
      ∧ newFdoIconData iconValueWorld "T" 16 "/d/applications/none.desktop"
        = some { name := "", iconName := "missing", iconPath := "", exec := "" } := by
  decide

/-! ### Results of the parser and of the exact lookup -/

/-- C19. The parser never fails on content: a line that begins with `Name=`,
`Icon=` or `Exec=` splits after `=` into at least two pieces, so the index `1`
is in range, and `newFdoIconData` returns nil exactly when the file cannot be
opened or the scanner reports a read error, whatever the lines are. -/
theorem newFdoIconData_nil_iff (w : World) (theme : String) (size : Int) (path : String)
    (line : String) :
    (isKeyLine line = true → 2 ≤ (SplitAfter line '=').length)
      ∧ (newFdoIconData w theme size path = none
          ↔ (w.Scan path = ScanResult.openError
              ∨ ∃ lines, w.Scan path = ScanResult.scanned lines true)) := by
  constructor
  · intro hk
    unfold isKeyLine at hk
    simp only [Bool.or_eq_true] at hk
    rcases hk with (h | h) | h
    · exact one_lt_length_SplitAfter line "Name=" (by decide) h
    · exact one_lt_length_SplitAfter line "Icon=" (by decide) h
    · exact one_lt_length_SplitAfter line "Exec=" (by decide) h
  · unfold newFdoIconData
    cases hs : w.Scan path with
    | openError => simp
    | scanned lines readError => cases readError <;> simp

/-- The lines `Name=`, `Icon=`, `Exec=` with an empty value give a record with
empty fields, not nil. -/
theorem newFdoIconData_empty_values :
    newFdoIconData (emptyWorld.withFile "/a.desktop"
        (ScanResult.scanned ["[Desktop Entry]", "Name=", "Icon=", "Exec="] false))
        "T" 16 "/a.desktop"
      = some { name := "", iconName := "", iconPath := "", exec := "" } := by
  decide

theorem firstStat_some (w : World) (paths : List String) (p : String)
    (h : firstStat w paths = some p) : p ∈ paths ∧ w.Stat p = StatResult.ok := by
  unfold firstStat at h
  exact ⟨List.mem_of_find?_eq_some h, by simpa using List.find?_some h⟩

theorem metadataFiles_sound (w : World) (theme : String) (size : Int)
    (appName testLocation : String) (data : fdoIconData) (files : List FileInfo)
    (h : metadataFiles w theme size appName testLocation files
      = some (IconData.fdo (some data))) :
    ∃ f ∈ files, (HasPrefix f.Name "." || f.IsDir) = false
      ∧ newFdoIconData w theme size (Join [testLocation, f.Name]) = some data
      ∧ (data.name = appName ∨ data.exec = appName) := by
  induction files with
  | nil => simp [metadataFiles] at h
  | cons f files ih =>
    rw [metadataFiles] at h
    by_cases hskip : (HasPrefix f.Name "." || f.IsDir) = true
    · rw [if_pos hskip] at h
      obtain ⟨g, hg, hrest⟩ := ih h
      exact ⟨g, List.mem_cons_of_mem f hg, hrest⟩
    · rw [if_neg hskip] at h
      have hskip2 : (HasPrefix f.Name "." || f.IsDir) = false := by simpa using hskip
      cases hn : newFdoIconData w theme size (Join [testLocation, f.Name]) with
      | none => simp [hn] at h
      | some icon =>
        rw [hn] at h
        by_cases hm : icon.name = appName ∨ icon.exec = appName
        · simp only [hm, if_true, Option.some.injEq, IconData.fdo.injEq] at h
          subst h
          exact ⟨f, List.mem_cons_self f files, hskip2, hn, hm⟩
        · simp only [hm, if_false] at h
          obtain ⟨g, hg, hrest⟩ := ih h
          exact ⟨g, List.mem_cons_of_mem f hg, hrest⟩

theorem metadataDirs_sound (w : World) (theme : String) (size : Int) (appName : String)
    (data : fdoIconData) (dirs : List String)
    (h : metadataDirs w theme size appName dirs = IconData.fdo (some data)) :
    ∃ p ∈ dirs.flatMap (applicationEntries w),
      newFdoIconData w theme size p = some data
        ∧ (data.name = appName ∨ data.exec = appName) := by
  induction dirs with
  | nil => simp [metadataDirs] at h
  | cons dataDir rest ih =>
    rw [metadataDirs] at h
    have hrest : metadataDirs w theme size appName rest = IconData.fdo (some data) →
        ∃ p ∈ (dataDir :: rest).flatMap (applicationEntries w),
          newFdoIconData w theme size p = some data
            ∧ (data.name = appName ∨ data.exec = appName) := by
      intro h2
      obtain ⟨p, hp, hrest⟩ := ih h2
      refine ⟨p, ?_, hrest⟩
      simp only [List.flatMap_cons, List.mem_append]
      exact Or.inr hp
    cases hr : w.ReadDir (Join [dataDir, "applications"]) with
    | none =>
      simp only [hr] at h
      exact hrest h
    | some files =>
      simp only [hr] at h
      cases hm : metadataFiles w theme size appName (Join [dataDir, "applications"]) files with
      | none =>
        simp only [hm] at h
        exact hrest h
      | some icon =>
        simp only [hm] at h
        subst h
        obtain ⟨f, hf, hskip, hparse, hmatch⟩ :=
          metadataFiles_sound w theme size appName _ data files hm
        refine ⟨Join [Join [dataDir, "applications"], f.Name], ?_, hparse, hmatch⟩
        simp only [List.flatMap_cons, List.mem_append, applicationEntries, hr, List.mem_map,
          List.mem_filter]
        exact Or.inl ⟨f, ⟨hf, by simp [hskip]⟩, rfl⟩

/-- C20. Soundness of the exact lookup: a record that `fdoLookupApplication`
returns and that is not nil was parsed from an existing
`<d>/applications/<name>.desktop` of a data directory `d`, or from an entry of
an `applications` directory that is not hidden and not a directory and whose
parsed display name or exec command equals the requested name. -/
theorem fdoLookupApplication_sound (w : World) (theme : String) (size : Int)
    (appName : String) (data : fdoIconData)
    (h : fdoLookupApplication w theme size appName = IconData.fdo (some data)) :
    (∃ d ∈ fdoLookupXdgDataDirs w,
        w.Stat (Join [d, "applications", appName ++ ".desktop"]) = StatResult.ok
          ∧ newFdoIconData w theme size (Join [d, "applications", appName ++ ".desktop"])
            = some data)
      ∨ (∃ p ∈ applicationFiles w,
          newFdoIconData w theme size p = some data
            ∧ (data.name = appName ∨ data.exec = appName)) := by
  unfold fdoLookupApplication at h
  cases hf : firstStat w ((fdoLookupXdgDataDirs w).map (fun dataDir =>
      Join [dataDir, "applications", appName ++ ".desktop"])) with
  | some testLocation =>
    simp only [hf, IconData.fdo.injEq] at h
    obtain ⟨hmem, hstat⟩ := firstStat_some w _ _ hf
    obtain ⟨d, hd, rfl⟩ := List.mem_map.mp hmem
    exact Or.inl ⟨d, hd, hstat, h⟩
  | none =>
    simp only [hf] at h
    exact Or.inr (metadataDirs_sound w theme size appName data _ h)

/-- Witness of C20 in `exactWorld`: the record returned for `xterm` is the one
parsed from `/d2/applications/xterm.desktop`. -/
theorem fdoLookupApplication_sound_witness :
    (∃ d ∈ fdoLookupXdgDataDirs exactWorld,
        exactWorld.Stat (Join [d, "applications", "xterm" ++ ".desktop"]) = StatResult.ok
          ∧ newFdoIconData exactWorld "T" 16 (Join [d, "applications", "xterm" ++ ".desktop"])
            = some { name := "XTerm", iconName := "", iconPath := "", exec := "xterm" })
      ∨ (∃ p ∈ applicationFiles exactWorld,
          newFdoIconData exactWorld "T" 16 p
              = some { name := "XTerm", iconName := "", iconPath := "", exec := "xterm" }
            ∧ ("XTerm" = "xterm" ∨ "xterm" = "xterm")) :=
  fdoLookupApplication_sound exactWorld "T" 16 "xterm"
    { name := "XTerm", iconName := "", iconPath := "", exec := "xterm" } (by decide)

/-- C18. In `blockedWorld` the descriptor `xterm.desktop` of `/d1` exists and
cannot be opened, the one of `/d2` is readable and another readable descriptor
has the display name `xterm`; `fdoLookupApplication` for `xterm` returns the nil
record of the `/d1` file, and neither of the two readable descriptors. -/
theorem fdoLookupApplication_blocked_by_unreadable :
    fdoLookupApplication blockedWorld "T" 16 "xterm" = IconData.fdo none
      ∧ newFdoIconData blockedWorld "T" 16 "/d2/applications/xterm.desktop"
        = some { name := "XTerm", iconName := "", iconPath := "", exec := "xterm" }
      ∧ fdoLookupApplicationByMetadata blockedWorld "T" 16 "xterm"
        = IconData.fdo (some { name := "xterm", iconName := "", iconPath := "", exec := "term" }) := by
  decide

/-! ### The category scan -/

theorem firstNonEmpty_eq_find {α : Type} (f : α → String) (l : List α) :
    firstNonEmpty f l = (l.map f).find? (fun r => decide (r ≠ "")) := by
  induction l with
  | nil => rfl
  | cons e es ih =>
    by_cases he : f e = ""
    · simp [firstNonEmpty, he, ih]
    · simp [firstNonEmpty, he]

theorem sizeDirs_eq (files : List FileInfo) :
    sizeDirs files = (files.filter (fun f => f.IsDir && !HasPrefix f.Name ".")).reverse := by
  unfold sizeDirs
  rw [List.filter_reverse]
  congr 1
  apply List.filter_congr
  intro f _
  cases f.IsDir <;> cases HasPrefix f.Name "." <;> rfl

theorem lookupAnyIconSizeInThemeDir_eq_find (w : World) (root c n : String)
    (files : List FileInfo) (hread : w.ReadDir root = some files) :
    lookupAnyIconSizeInThemeDir w root c n
      = ((sizeThenCategory root c n files ++ categoryThenSize w root c n).find?
          (fun p => decide (w.Stat p = StatResult.ok))).getD "" := by
  unfold lookupAnyIconSizeInThemeDir
  simp only [hread, firstStat, sizeDirs_eq, iconExtensions, List.map_cons, List.map_nil]
  rw [List.find?_append]
  unfold sizeThenCategory
  cases h1 : List.find? (fun p => decide (w.Stat p = StatResult.ok))
      (((files.filter (fun f => f.IsDir && !HasPrefix f.Name ".")).reverse).flatMap (fun d =>
        [Join [Join [root, d.Name], c, n ++ ".png"],
          Join [Join [root, d.Name], c, n ++ ".svg"]])) with
  | some p => simp
  | none =>
    simp only [Option.none_or]
    unfold categoryThenSize
    cases h2 : w.ReadDir (Join [root, c]) with
    | none => simp
    | some files2 =>
      simp only
      cases h3 : List.find? (fun p => decide (w.Stat p = StatResult.ok))
          (((files2.filter (fun f => f.IsDir && !HasPrefix f.Name ".")).reverse).flatMap
            (fun d => [Join [Join [Join [root, c], d.Name], n ++ ".png"],
              Join [Join [Join [root, c], d.Name], n ++ ".svg"]])) with
      | some p => simp
      | none => simp

/-- C16. Category scan order of `lookupIconPathInTheme`: when the theme root
exists and none of the twelve direct candidates exists, the result is that of
the first category, in the order apps, actions, devices, emblems, mimetypes,
places, status, for which `lookupAnyIconSizeInThemeDir` is not empty (and the
empty string when there is none); for a root that can be listed and one
category, `lookupAnyIconSizeInThemeDir` returns the first existing path among
the size-then-category paths followed by the category-then-size paths, each
over the subdirectories that are not hidden in reverse listing order, `.png`
before `.svg` for each subdirectory; and for a root that cannot be listed it
returns the empty string. -/
theorem lookupIconPathInTheme_category_scan (w : World) (S root n : String)
    (hroot : w.Stat root ≠ StatResult.notExist)
    (hnone : ∀ q ∈ directCandidates root S n, w.Stat q ≠ StatResult.ok) :
    lookupIconPathInTheme w S root n
        = ((["apps", "actions", "devices", "emblems", "mimetypes", "places", "status"].map
              (fun c => lookupAnyIconSizeInThemeDir w root c n)).find?
            (fun r => decide (r ≠ ""))).getD ""
      ∧ (∀ (c : String) (files : List FileInfo), w.ReadDir root = some files →
          lookupAnyIconSizeInThemeDir w root c n
            = ((sizeThenCategory root c n files ++ categoryThenSize w root c n).find?
                (fun p => decide (w.Stat p = StatResult.ok))).getD "")
      ∧ (w.ReadDir root = none → ∀ c : String, lookupAnyIconSizeInThemeDir w root c n = "") := by
  refine ⟨?_, fun c files hread => lookupAnyIconSizeInThemeDir_eq_find w root c n files hread,
    fun hread c => by unfold lookupAnyIconSizeInThemeDir; rw [hread]⟩
  have hlist : (iconExtensions.flatMap (fun extension =>
        [ Join [root, S, "apps", n ++ extension],
          Join [root, S ++ "x" ++ S, "apps", n ++ extension],
          Join [root, "apps", S, n ++ extension],
          Join [root, "apps", S ++ "x" ++ S, n ++ extension],
          Join [root, "scalable", "apps", n ++ extension],
          Join [root, "apps", "scalable", n ++ extension] ])) = directCandidates root S n := by
    simp [iconExtensions, directCandidates]
  unfold lookupIconPathInTheme
  rw [if_neg hroot, hlist, firstStat_eq_none w _ hnone]
  simp only
  rw [firstNonEmpty_eq_find]
  cases hfind : (subIconDirs.map (fun joiner => lookupAnyIconSizeInThemeDir w root joiner n)).find?
      (fun r => decide (r ≠ "")) with
  | some r =>
    unfold subIconDirs at hfind
    rw [hfind]
    rfl
  | none =>
    unfold subIconDirs at hfind
    rw [hfind]
    rfl

/-- Witness of C16 in `categoryWorld`: no direct candidate of size `24` exists;
the icon `x` in category apps, at the smaller size `16` and as `.svg`, wins over
the icon in category actions at size `32`, and over the category-then-size path
`apps/48/x.png`. -/
theorem lookupIconPathInTheme_category_scan_witness :
    lookupIconPathInTheme categoryWorld "24" "/r" "x" = "/r/16/apps/x.svg" :=
  (lookupIconPathInTheme_category_scan categoryWorld "24" "/r" "x"
    (by decide) (by decide)).1.trans (by decide)

/-- In `categoryWorld` the icon `y` exists in the category-then-size layout
only and is found there; the hidden directory `.git` is not entered. -/
theorem lookupAnyIconSizeInThemeDir_categoryWorld :
    lookupAnyIconSizeInThemeDir categoryWorld "/r" "apps" "y" = "/r/apps/48/y.png"
      ∧ sizeThenCategory "/r" "apps" "x"
          [{ Name := ".git", IsDir := true }, { Name := "16", IsDir := true },
            { Name := "32", IsDir := true }, { Name := "index.theme", IsDir := false }]
        = ["/r/32/apps/x.png", "/r/32/apps/x.svg", "/r/16/apps/x.png", "/r/16/apps/x.svg"] := by
  decide

/-! ### Larger sizes first -/

theorem digitsValue_lt (ds : List Char) (h : ds.all isDecimalDigit = true) :
    digitsValue ds < 10 ^ ds.length := by
  induction ds with
  | nil => simp [digitsValue]
  | cons c cs ih =>
    simp only [List.all_cons, Bool.and_eq_true] at h
    have hc : c.toNat - 48 ≤ 9 := by
      have := h.1
      simp only [isDecimalDigit, decide_eq_true_eq] at this
      omega
    have ih2 := ih h.2
    simp only [digitsValue, List.length_cons, pow_succ]
    nlinarith [Nat.mul_le_mul_right (10 ^ cs.length) hc]

/-- Among digit strings of one length, a smaller number is a smaller string,
whatever follows the digits. -/
theorem lexLt_of_digitsValue_lt (da : List Char) :
    ∀ (db ra rb : List Char), da.length = db.length →
      da.all isDecimalDigit = true → db.all isDecimalDigit = true →
      digitsValue da < digitsValue db → lexLt (da ++ ra) (db ++ rb) = true := by
  induction da with
  | nil =>
    intro db ra rb hlen _ _ hlt
    cases db with
    | nil => simp [digitsValue] at hlt
    | cons b bs => simp at hlen
  | cons a as ih =>
    intro db ra rb hlen ha hb hlt
    cases db with
    | nil => simp at hlen
    | cons b bs =>
      simp only [List.length_cons, Nat.add_right_cancel_iff] at hlen
      simp only [List.all_cons, Bool.and_eq_true] at ha hb
      have ha1 := ha.1
      have hb1 := hb.1
      simp only [isDecimalDigit, decide_eq_true_eq] at ha1 hb1
      have hva := digitsValue_lt as ha.2
      have hvb := digitsValue_lt bs hb.2
      simp only [digitsValue, hlen] at hlt
      rw [hlen] at hva
      simp only [List.cons_append, lexLt, Bool.or_eq_true, Bool.and_eq_true, decide_eq_true_eq]
      by_cases hab : a.toNat < b.toNat
      · exact Or.inl hab
      · right
        have hle : a.toNat - 48 ≤ b.toNat - 48 := by
          by_contra hcon
          have h1 : b.toNat - 48 + 1 ≤ a.toNat - 48 := by omega
          have h2 := Nat.mul_le_mul_right (10 ^ bs.length) h1
          nlinarith
        have heq : a.toNat = b.toNat := by omega
        refine ⟨heq, ih bs ra rb hlen ha.2 hb.2 ?_⟩
        rw [heq] at hlt
        omega

/-- In a listing sorted by name, a size directory listed after another one of
the same number of digits is not smaller. -/
theorem sizeValue_le_of_not_lexLt (k : Nat) (a b : String)
    (ha : (sizeOfName k a).isSome = true) (hb : (sizeOfName k b).isSome = true)
    (h : lexLt b.data a.data = false) : sizeValue k a ≤ sizeValue k b := by
  unfold sizeValue
  unfold sizeOfName at ha hb ⊢
  dsimp only at ha hb ⊢
  by_cases hca : (a.data.take k).length = k ∧ (a.data.take k).all isDecimalDigit = true
      ∧ (a.data.drop k = [] ∨ a.data.drop k = 'x' :: a.data.take k)
  · by_cases hcb : (b.data.take k).length = k ∧ (b.data.take k).all isDecimalDigit = true
        ∧ (b.data.drop k = [] ∨ b.data.drop k = 'x' :: b.data.take k)
    · simp only [hca, hcb, and_self, if_true, Option.getD_some]
      by_contra hcon
      have hlt : digitsValue (b.data.take k) < digitsValue (a.data.take k) := by omega
      have := lexLt_of_digitsValue_lt (b.data.take k) (a.data.take k) (b.data.drop k)
        (a.data.drop k) (by rw [hca.1, hcb.1]) hcb.2.1 hca.2.1 hlt
      rw [List.take_append_drop, List.take_append_drop, h] at this
      exact Bool.noConfusion this
    · rw [if_neg hcb] at hb
      exact Bool.noConfusion hb
  · rw [if_neg hca] at ha
    exact Bool.noConfusion ha

theorem exists_first_of_exists {α : Type} (P : α → Prop) (l : List α)
    (h : ∃ f ∈ l, P f) :
    ∃ (pre post : List α) (f : α), l = pre ++ f :: post ∧ (∀ g ∈ pre, ¬ P g) ∧ P f := by
  induction l with
  | nil => simp at h
  | cons x xs ih =>
    by_cases hx : P x
    · exact ⟨[], xs, x, rfl, by simp, hx⟩
    · have h2 : ∃ f ∈ xs, P f := by
        obtain ⟨f, hf, hpf⟩ := h
        rcases List.mem_cons.mp hf with rfl | hmem
        · exact absurd hpf hx
        · exact ⟨f, hmem, hpf⟩
      obtain ⟨pre, post, f, hl, hpre, hf⟩ := ih h2
      refine ⟨x :: pre, post, f, by rw [hl]; rfl, ?_, hf⟩
      intro g hg
      rcases List.mem_cons.mp hg with rfl | hmem
      · exact hx
      · exact hpre g hmem

theorem firstStat_flatMap_pair {α : Type} (w : World) (a b : α → String)
    (pre post : List α) (f : α)
    (hpre : ∀ g ∈ pre, w.Stat (a g) ≠ StatResult.ok ∧ w.Stat (b g) ≠ StatResult.ok)
    (hf : w.Stat (a f) = StatResult.ok ∨ w.Stat (b f) = StatResult.ok) :
    firstStat w ((pre ++ f :: post).flatMap (fun g => [a g, b g]))
      = some (if w.Stat (a f) = StatResult.ok then a f else b f) := by
  have hprec : ∀ q ∈ pre.flatMap (fun g => [a g, b g]), w.Stat q ≠ StatResult.ok := by
    intro q hq
    simp only [List.mem_flatMap, List.mem_cons, List.mem_singleton, List.not_mem_nil,
      or_false] at hq
    obtain ⟨e, he, rfl | rfl⟩ := hq
    · exact (hpre e he).1
    · exact (hpre e he).2
  rw [List.flatMap_append, List.flatMap_cons]
  simp only [List.cons_append, List.nil_append]
  by_cases ha : w.Stat (a f) = StatResult.ok
  · rw [if_pos ha, firstStat_append_hit w _ _ _ hprec ha]
  · rw [if_neg ha]
    have hb : w.Stat (b f) = StatResult.ok := hf.resolve_left ha
    have hprec2 : ∀ q ∈ pre.flatMap (fun g => [a g, b g]) ++ [a f],
        w.Stat q ≠ StatResult.ok := by
      intro q hq
      rcases List.mem_append.mp hq with h | h
      · exact hprec q h
      · rw [List.mem_singleton.mp h]; exact ha
    have := firstStat_append_hit w _ (post.flatMap (fun g => [a g, b g])) _ hprec2 hb
    simp only [List.cons_append, List.nil_append, List.append_assoc] at this
    rw [this]

/-- C17. Larger icons are found first by `lookupAnyIconSizeInThemeDir`: for a
listing of `directory` sorted by file name whose subdirectories are size
directories named `N` or `NxN` with `N` written in `k` decimal digits, when the
icon exists as `.png` or as `.svg` under `<directory>/<size>/<joiner>/` for some
sizes, the path returned lies in a size directory that holds the icon and whose
size is the largest among those that do; it is the `.png` of that directory
when that exists and its `.svg` otherwise. -/
theorem lookupAnyIconSizeInThemeDir_largest_size (w : World)
    (directory joiner iconName : String) (files : List FileInfo) (k : Nat)
    (hread : w.ReadDir directory = some files)
    (hsorted : sortedByName files)
    (hsizes : ∀ f ∈ files, f.IsDir = true → HasPrefix f.Name "." = false →
      (sizeOfName k f.Name).isSome = true)
    (hhit : ∃ f ∈ files, holdsIcon w directory joiner iconName f) :
    ∃ f ∈ files, holdsIcon w directory joiner iconName f
      ∧ (∀ g ∈ files, holdsIcon w directory joiner iconName g →
          sizeValue k g.Name ≤ sizeValue k f.Name)
      ∧ lookupAnyIconSizeInThemeDir w directory joiner iconName
        = (if w.Stat (sizePng directory joiner iconName f.Name) = StatResult.ok
            then sizePng directory joiner iconName f.Name
            else sizeSvg directory joiner iconName f.Name) := by
  have hmemL : ∀ g, g ∈ sizeDirs files ↔
      g ∈ files ∧ g.IsDir = true ∧ HasPrefix g.Name "." = false := by
    intro g
    unfold sizeDirs
    simp only [List.mem_filter, List.mem_reverse, Bool.not_eq_true', Bool.or_eq_false_iff,
      Bool.not_eq_false']
    tauto
  have hhitL : ∃ f ∈ sizeDirs files, holdsIcon w directory joiner iconName f := by
    obtain ⟨f, hf, hh⟩ := hhit
    exact ⟨f, (hmemL f).mpr ⟨hf, hh.1, hh.2.1⟩, hh⟩
  obtain ⟨pre, post, f, hL, hpre, hf⟩ :=
    exists_first_of_exists (holdsIcon w directory joiner iconName) (sizeDirs files) hhitL
  have hfL : f ∈ sizeDirs files := by rw [hL]; simp
  have hpw : (sizeDirs files).Pairwise (fun a b => lexLt a.Name.data b.Name.data = false) := by
    unfold sizeDirs
    apply List.Pairwise.filter
    rw [List.pairwise_reverse]
    exact hsorted
  refine ⟨f, ((hmemL f).mp hfL).1, hf, ?_, ?_⟩
  · intro g hg hgh
    have hgL : g ∈ sizeDirs files := (hmemL g).mpr ⟨hg, hgh.1, hgh.2.1⟩
    rw [hL] at hgL hpw
    rcases List.mem_append.mp hgL with hin | hin
    · exact absurd hgh (hpre g hin)
    · rcases List.mem_cons.mp hin with rfl | hpost
      · exact Nat.le_refl _
      · have hrel : lexLt f.Name.data g.Name.data = false :=
          List.rel_of_pairwise_cons (List.pairwise_append.mp hpw).2.1 hpost
        exact sizeValue_le_of_not_lexLt k g.Name f.Name
          (hsizes g hg hgh.1 hgh.2.1)
          (hsizes f ((hmemL f).mp hfL).1 hf.1 hf.2.1) hrel
  · have hpre2 : ∀ g ∈ pre, w.Stat (sizePng directory joiner iconName g.Name) ≠ StatResult.ok
        ∧ w.Stat (sizeSvg directory joiner iconName g.Name) ≠ StatResult.ok := by
      intro g hg
      have hgL : g ∈ sizeDirs files := by rw [hL]; exact List.mem_append_left _ hg
      have hnot := hpre g hg
      unfold holdsIcon at hnot
      have := (hmemL g).mp hgL
      constructor
      · intro h; exact hnot ⟨this.2.1, this.2.2, Or.inl h⟩
      · intro h; exact hnot ⟨this.2.1, this.2.2, Or.inr h⟩
    have hfirst := firstStat_flatMap_pair w
      (fun g : FileInfo => sizePng directory joiner iconName g.Name)
      (fun g : FileInfo => sizeSvg directory joiner iconName g.Name) pre post f hpre2 hf.2.2
    unfold lookupAnyIconSizeInThemeDir
    simp only [hread, iconExtensions, List.map_cons, List.map_nil, hL]
    unfold sizePng sizeSvg at hfirst
    rw [hfirst]
    rfl

/-- Witness of C17 in `sizesWorld`: the icon is in the size directories `16`,
`32` and `64`, and the path returned is the one of `64`. -/
theorem lookupAnyIconSizeInThemeDir_largest_size_witness :
    ∃ f ∈ [({ Name := "16", IsDir := true } : FileInfo), { Name := "32", IsDir := true },
        { Name := "64", IsDir := true }],
      holdsIcon sizesWorld "/r" "apps" "x" f
      ∧ (∀ g ∈ [({ Name := "16", IsDir := true } : FileInfo), { Name := "32", IsDir := true },
            { Name := "64", IsDir := true }],
          holdsIcon sizesWorld "/r" "apps" "x" g → sizeValue 2 g.Name ≤ sizeValue 2 f.Name)
      ∧ lookupAnyIconSizeInThemeDir sizesWorld "/r" "apps" "x"
        = (if sizesWorld.Stat (sizePng "/r" "apps" "x" f.Name) = StatResult.ok
            then sizePng "/r" "apps" "x" f.Name else sizeSvg "/r" "apps" "x" f.Name) :=
  lookupAnyIconSizeInThemeDir_largest_size sizesWorld "/r" "apps" "x"
    [{ Name := "16", IsDir := true }, { Name := "32", IsDir := true },
      { Name := "64", IsDir := true }] 2
    (by decide) (by unfold sortedByName; decide) (by decide)
    ⟨{ Name := "64", IsDir := true }, by decide, by unfold holdsIcon; decide⟩

/-- In `sizesWorld` the listing of `/r` is sorted by name, its subdirectories
are the two-digit size directories `16`, `32`, `64`, and `x.png` exists under
`apps` for the sizes `16` and `32` but not for `64`; the path returned is
`/r/64/apps/x.svg`, not the `.png` of the largest size directory that holds
`x.png`. -/
theorem lookupAnyIconSizeInThemeDir_svg_of_larger_size :
    sizesWorld.ReadDir "/r"
        = some [{ Name := "16", IsDir := true }, { Name := "32", IsDir := true },
            { Name := "64", IsDir := true }]
      ∧ sortedByName [{ Name := "16", IsDir := true }, { Name := "32", IsDir := true },
            { Name := "64", IsDir := true }]
      ∧ sizeOfName 2 "16" = some 16 ∧ sizeOfName 2 "32" = some 32 ∧ sizeOfName 2 "64" = some 64
      ∧ sizesWorld.Stat (sizePng "/r" "apps" "x" "16") = StatResult.ok
      ∧ sizesWorld.Stat (sizePng "/r" "apps" "x" "32") = StatResult.ok
      ∧ sizesWorld.Stat (sizePng "/r" "apps" "x" "64") ≠ StatResult.ok
      ∧ lookupAnyIconSizeInThemeDir sizesWorld "/r" "apps" "x" = "/r/64/apps/x.svg"
      ∧ lookupAnyIconSizeInThemeDir sizesWorld "/r" "apps" "x" ≠ sizePng "/r" "apps" "x" "32" := by
  refine ⟨by decide, by unfold sortedByName; decide, by decide, by decide, by decide,
    by decide, by decide, by decide, by decide, by decide⟩

/-! ### Validated result of the icon resolver -/

theorem splitChars_append_sep (c : Char) (a b : List Char) :
    splitChars c (a ++ c :: b) = splitChars c a ++ splitChars c b := by
  induction a with
  | nil => simp [splitChars]
  | cons x xs ih =>
    by_cases hx : x = c
    · simp [splitChars, hx, ih]
    · cases hs : splitChars c xs with
      | nil => exact absurd hs (splitChars_ne_nil c xs)
      | cons h t => simp [splitChars, hx, ih, hs]

theorem splitChars_no_sep (c : Char) (l : List Char) (h : c ∉ l) :
    splitChars c l = [l] := by
  induction l with
  | nil => rfl
  | cons x xs ih =>
    have hx : x ≠ c := fun e => h (e ▸ List.mem_cons_self x xs)
    have hxs : c ∉ xs := fun m => h (List.mem_cons_of_mem x m)
    simp [splitChars, hx, ih hxs]

theorem not_mem_of_mem_splitChars (c : Char) (l : List Char) :
    ∀ e ∈ splitChars c l, c ∉ e := by
  induction l with
  | nil => intro e he; simp [splitChars] at he; simp [he]
  | cons x xs ih =>
    intro e he
    by_cases hx : x = c
    · simp only [splitChars, hx, if_true, List.mem_cons] at he
      rcases he with rfl | he
      · simp
      · exact ih e he
    · cases hs : splitChars c xs with
      | nil => exact absurd hs (splitChars_ne_nil c xs)
      | cons h t =>
        simp only [splitChars, hx, if_false, hs, List.mem_cons] at he
        rw [hs] at ih
        rcases he with rfl | he
        · intro hm
          rcases List.mem_cons.mp hm with h1 | h1
          · exact hx h1.symm
          · exact ih h (List.mem_cons_self h t) h1
        · exact ih e (List.mem_cons_of_mem h he)

theorem splitChars_intercalate (c : Char) (parts : List (List Char)) (hne : parts ≠ [])
    (h : ∀ e ∈ parts, c ∉ e) :
    splitChars c (List.intercalate [c] parts) = parts := by
  induction parts with
  | nil => exact absurd rfl hne
  | cons p rest ih =>
    cases rest with
    | nil =>
      have hi : List.intercalate [c] [p] = p := by
        simp [List.intercalate, List.intersperse, List.flatten]
      rw [hi]
      exact splitChars_no_sep c p (h p (List.mem_cons_self p []))
    | cons q rest =>
      have hrest : ∀ e ∈ q :: rest, c ∉ e := fun e he => h e (List.mem_cons_of_mem p he)
      have := ih (by simp) hrest
      have hi : List.intercalate [c] (p :: q :: rest)
          = p ++ c :: List.intercalate [c] (q :: rest) := by
        simp [List.intercalate, List.intersperse, List.flatten]
      rw [hi, splitChars_append_sep, this, splitChars_no_sep c p (h p (List.mem_cons_self p _))]
      rfl

theorem Normal_of_plain_append (r : Bool) (T st : List (List Char))
    (hT : ∀ t ∈ T, plainChars t) (hst : Normal r st) : Normal r (T ++ st) := by
  induction T with
  | nil => exact hst
  | cons t T ih =>
    have ht := hT t (List.mem_cons_self t T)
    exact ⟨ht.1, ht.2.1, ht.2.2.1, fun h => absurd h ht.2.2.2,
      ih (fun x hx => hT x (List.mem_cons_of_mem t hx))⟩

theorem Normal_mem (r : Bool) (st : List (List Char)) (h : Normal r st) :
    ∀ e ∈ st, e ≠ [] ∧ '/' ∉ e ∧ e ≠ ['.'] := by
  induction st with
  | nil => intro e he; simp at he
  | cons x st ih =>
    intro e he
    rcases List.mem_cons.mp he with rfl | hmem
    · exact ⟨h.1, h.2.1, h.2.2.1⟩
    · exact ih h.2.2.2.2 e hmem

theorem cleanStep_Normal (r : Bool) (st : List (List Char)) (e : List Char)
    (hst : Normal r st) (he : '/' ∉ e) : Normal r (cleanStep r st e) := by
  unfold cleanStep
  by_cases h1 : e = [] ∨ e = ['.']
  · rw [if_pos h1]; exact hst
  · rw [if_neg h1]
    have hne : e ≠ [] := fun h => h1 (Or.inl h)
    have hnd : e ≠ ['.'] := fun h => h1 (Or.inr h)
    by_cases h2 : e = ['.', '.']
    · rw [if_pos h2]
      cases st with
      | nil =>
        cases r with
        | true => simp [Normal]
        | false =>
          simp only [Bool.false_eq_true, if_false]
          exact ⟨hne, he, hnd, fun _ => ⟨rfl, by simp⟩, trivial⟩
      | cons top rest =>
        simp only
        by_cases h3 : top = ['.', '.']
        · rw [if_pos h3]
          have := hst.2.2.2.1 h3
          refine ⟨hne, he, hnd, fun _ => ⟨this.1, ?_⟩, hst⟩
          intro x hx
          rcases List.mem_cons.mp hx with rfl | hmem
          · exact h3
          · exact this.2 x hmem
        · rw [if_neg h3]
          exact hst.2.2.2.2
    · rw [if_neg h2]
      exact ⟨hne, he, hnd, fun h => absurd h h2, hst⟩

theorem foldl_cleanStep_Normal (r : Bool) (cs : List (List Char)) :
    ∀ st, Normal r st → (∀ c ∈ cs, '/' ∉ c) → Normal r (cs.foldl (cleanStep r) st) := by
  induction cs with
  | nil => intro st h _; exact h
  | cons c cs ih =>
    intro st h hc
    exact ih _ (cleanStep_Normal r st c h (hc c (List.mem_cons_self c cs)))
      (fun x hx => hc x (List.mem_cons_of_mem c hx))

/-- Elements that are not `..` are pushed or skipped, never popped. -/
theorem foldl_cleanStep_push (r : Bool) (cs : List (List Char)) :
    ∀ st, (∀ c ∈ cs, c ≠ ['.', '.']) →
      cs.foldl (cleanStep r) st
        = (cs.filter (fun c => decide (c ≠ [] ∧ c ≠ ['.']))).reverse ++ st := by
  induction cs with
  | nil => intro st _; rfl
  | cons c cs ih =>
    intro st hc
    have hcd : c ≠ ['.', '.'] := hc c (List.mem_cons_self c cs)
    rw [List.foldl_cons, ih _ (fun x hx => hc x (List.mem_cons_of_mem c hx))]
    by_cases h1 : c = [] ∨ c = ['.']
    · have : ¬ (c ≠ [] ∧ c ≠ ['.']) := by tauto
      simp [cleanStep, h1, this]
    · have : c ≠ [] ∧ c ≠ ['.'] := by tauto
      simp [cleanStep, h1, hcd, this]

/-- Reading the elements of a normal stack back, bottom first, rebuilds it. -/
theorem foldl_cleanStep_reverse (r : Bool) (st : List (List Char)) (h : Normal r st) :
    st.reverse.foldl (cleanStep r) [] = st := by
  induction st with
  | nil => rfl
  | cons e st ih =>
    rw [List.reverse_cons, List.foldl_append, ih h.2.2.2.2]
    simp only [List.foldl_cons, List.foldl_nil]
    unfold cleanStep
    have h1 : ¬ (e = [] ∨ e = ['.']) := by
      intro hc; rcases hc with hc | hc
      · exact h.1 hc
      · exact h.2.2.1 hc
    rw [if_neg h1]
    by_cases h2 : e = ['.', '.']
    · rw [if_pos h2]
      have := h.2.2.2.1 h2
      cases st with
      | nil => simp [this.1, h2]
      | cons top rest =>
        have ht : top = ['.', '.'] := this.2 top (List.mem_cons_self top rest)
        simp [ht, h2]
    · rw [if_neg h2]

theorem intercalate_singleton (c : Char) (e : List Char) : List.intercalate [c] [e] = e := by
  simp [List.intercalate, List.intersperse, List.flatten]

theorem intercalate_cons_cons (c : Char) (p q : List Char) (rest : List (List Char)) :
    List.intercalate [c] (p :: q :: rest) = p ++ c :: List.intercalate [c] (q :: rest) := by
  simp [List.intercalate, List.intersperse, List.flatten]

theorem intercalate_append_singleton (c : Char) (parts : List (List Char)) (e : List Char)
    (hne : parts ≠ []) :
    List.intercalate [c] (parts ++ [e]) = List.intercalate [c] parts ++ c :: e := by
  induction parts with
  | nil => exact absurd rfl hne
  | cons p rest ih =>
    cases rest with
    | nil => simp [intercalate_cons_cons, intercalate_singleton]
    | cons q rest =>
      have := ih (by simp)
      rw [List.cons_append, List.cons_append, intercalate_cons_cons, ← List.cons_append, this,
        intercalate_cons_cons]
      simp

theorem intercalate_append (c : Char) (a b : List (List Char)) (ha : a ≠ []) (hb : b ≠ []) :
    List.intercalate [c] (a ++ b)
      = List.intercalate [c] a ++ c :: List.intercalate [c] b := by
  induction b using List.reverseRecOn with
  | nil => exact absurd rfl hb
  | append_singleton b e ih =>
    by_cases hbn : b = []
    · subst hbn
      simp [intercalate_append_singleton c a e ha, intercalate_singleton]
    · rw [← List.append_assoc, intercalate_append_singleton c (a ++ b) e (by simp [ha]),
        ih hbn, intercalate_append_singleton c b e hbn]
      simp

/-- The characters of a rendered stack that is not empty. -/
theorem render_data (r : Bool) (st : List (List Char)) (h : Normal r st) (hne : st ≠ []) :
    (render r st).data
      = (if r then ['/'] else []) ++ List.intercalate ['/'] st.reverse := by
  have hbody : List.intercalate ['/'] st.reverse ≠ [] := by
    cases hrev : st.reverse with
    | nil => exact absurd (List.reverse_eq_nil_iff.mp hrev) hne
    | cons p rest =>
      have hp : p ∈ st := by
        have : p ∈ st.reverse := by rw [hrev]; exact List.mem_cons_self p rest
        exact List.mem_reverse.mp this
      have hpne := (Normal_mem r st h p hp).1
      cases rest with
      | nil => rw [intercalate_singleton]; exact hpne
      | cons q rest =>
        rw [intercalate_cons_cons]
        intro hc
        exact hpne (List.append_eq_nil.mp hc).1
  unfold render
  have hout : ((if r = true then "/" else "") ++ String.mk (List.intercalate ['/'] st.reverse))
      ≠ "" := by
    intro hc
    have := congrArg String.data hc
    simp only [String.data_append] at this
    exact hbody (List.append_eq_nil.mp this).2
  simp only [hout, if_false, String.data_append]
  cases r <;> rfl

theorem splitChars_render (r : Bool) (st : List (List Char)) (h : Normal r st)
    (hne : st ≠ []) :
    splitChars '/' (render r st).data = (if r then [[]] else []) ++ st.reverse := by
  have hparts : splitChars '/' (List.intercalate ['/'] st.reverse) = st.reverse :=
    splitChars_intercalate '/' st.reverse (by simpa using hne)
      (fun e he => (Normal_mem r st h e (List.mem_reverse.mp he)).2.1)
  rw [render_data r st h hne]
  cases r with
  | true =>
    simp only [if_true, List.cons_append, List.nil_append]
    rw [show '/' :: List.intercalate ['/'] st.reverse
        = [] ++ '/' :: List.intercalate ['/'] st.reverse from rfl, splitChars_append_sep, hparts]
    rfl
  | false =>
    simp only [Bool.false_eq_true, if_false, List.nil_append]
    exact hparts

/-- Cleaning a cleaned path changes nothing: the parts of a rendered normal
stack are that stack. -/
theorem clean_parts_render (r : Bool) (st : List (List Char)) (h : Normal r st) :
    HasPrefix (render r st) "/" = r
      ∧ (splitChars '/' (render r st).data).foldl (cleanStep r) [] = st := by
  by_cases hne : st = []
  · subst hne
    cases r <;> exact ⟨by decide, by decide⟩
  · constructor
    · unfold HasPrefix
      rw [render_data r st h hne]
      cases r with
      | true => simp [List.isPrefixOf]
      | false =>
        simp only [Bool.false_eq_true, if_false, List.nil_append]
        cases hrev : st.reverse with
        | nil => exact absurd (List.reverse_eq_nil_iff.mp hrev) hne
        | cons p rest =>
          have hp : p ∈ st := by
            have : p ∈ st.reverse := by rw [hrev]; exact List.mem_cons_self p rest
            exact List.mem_reverse.mp this
          have hpn := Normal_mem false st h p hp
          cases p with
          | nil => exact absurd rfl hpn.1
          | cons x xs =>
            have hx : x ≠ '/' := fun e => hpn.2.1 (e ▸ List.mem_cons_self x xs)
            have hx2 : ('/' == x) = false := by simpa using fun e : '/' = x => hx e.symm
            cases rest with
            | nil => rw [intercalate_singleton]; simp [List.isPrefixOf, hx2]
            | cons q rest => rw [intercalate_cons_cons]; simp [List.isPrefixOf, hx2]
    · rw [splitChars_render r st h hne]
      cases r with
      | true =>
        simp only [if_true, List.cons_append, List.nil_append, List.foldl_cons]
        have : cleanStep true [] [] = [] := by decide
        rw [this]
        exact foldl_cleanStep_reverse true st h
      | false =>
        simp only [Bool.false_eq_true, if_false, List.nil_append]
        exact foldl_cleanStep_reverse false st h

theorem intercalate_go_data (acc : String) (es : List String) :
    (String.intercalate.go acc "/" es).data
      = acc.data ++ es.flatMap (fun e => '/' :: e.data) := by
  induction es generalizing acc with
  | nil => simp [String.intercalate.go]
  | cons e es ih =>
    rw [String.intercalate.go, ih]
    simp [String.data_append]

theorem splitChars_flatMap (a : List Char) (es : List String) :
    splitChars '/' (a ++ es.flatMap (fun e => '/' :: e.data))
      = splitChars '/' a ++ es.flatMap (fun e => splitChars '/' e.data) := by
  induction es generalizing a with
  | nil => simp
  | cons e es ih =>
    rw [List.flatMap_cons, List.flatMap_cons, ← List.append_assoc,
      show a ++ '/' :: e.data = (a ++ '/' :: e.data) from rfl, ih, splitChars_append_sep,
      List.append_assoc]

theorem Clean_eq_render (path : String) :
    Clean path = render (HasPrefix path "/")
      ((splitChars '/' path.data).foldl (cleanStep (HasPrefix path "/")) []) := rfl

theorem render_ne_empty (r : Bool) (st : List (List Char)) : render r st ≠ "" := by
  unfold render
  simp only
  by_cases h : ((if r = true then "/" else "") ++ String.mk (List.intercalate ['/'] st.reverse))
      = ""
  · rw [if_pos h]; decide
  · rw [if_neg h]; exact h

/-- The elements behind a first element that is not empty are read one after
the other on top of the stack of the first. -/
theorem Join_cons_of_ne (X : String) (es : List String) (hX : X ≠ "") :
    Join (X :: es)
      = render (HasPrefix X "/")
          ((es.flatMap (fun e => splitChars '/' e.data)).foldl (cleanStep (HasPrefix X "/"))
            ((splitChars '/' X.data).foldl (cleanStep (HasPrefix X "/")) [])) := by
  have hdata : ("/".intercalate (X :: es)).data
      = X.data ++ es.flatMap (fun e => '/' :: e.data) := by
    rw [String.intercalate, intercalate_go_data]
  have hroot : HasPrefix ("/".intercalate (X :: es)) "/" = HasPrefix X "/" := by
    unfold HasPrefix
    rw [hdata]
    cases hx : X.data with
    | nil => exact absurd (String.ext hx) hX
    | cons x xs => simp [List.isPrefixOf]
  have hdrop : (X :: es).dropWhile (fun e => decide (e = "")) = X :: es := by
    simp [List.dropWhile, hX]
  unfold Join
  rw [hdrop]
  simp only
  rw [Clean_eq_render, hroot, hdata, splitChars_flatMap, List.foldl_append]

theorem Join_render_cons (r : Bool) (st : List (List Char)) (es : List String)
    (h : Normal r st) :
    Join (render r st :: es)
      = render r ((es.flatMap (fun e => splitChars '/' e.data)).foldl (cleanStep r) st) := by
  obtain ⟨h1, h2⟩ := clean_parts_render r st h
  rw [Join_cons_of_ne _ es (render_ne_empty r st), h1, h2]

theorem cleanStep_plain (r : Bool) (st : List (List Char)) (e : List Char)
    (he : plainChars e) : cleanStep r st e = e :: st := by
  unfold cleanStep
  have h1 : ¬ (e = [] ∨ e = ['.']) := by
    intro hc; rcases hc with hc | hc
    · exact he.1 hc
    · exact he.2.2.1 hc
  rw [if_neg h1, if_neg he.2.2.2]

/-- The base of a lookup: for a data directory `d` and a plain element `b`
there is a normal stack with `b` on top that renders `Join [d, b]`, and the
path `Join (d :: b :: es)` is the path `Join (Join [d, b] :: es)`. -/
theorem Join_base (d b : String) (hb : plainChars b.data) :
    ∃ (r : Bool) (st0 : List (List Char)), Normal r (b.data :: st0)
      ∧ Join [d, b] = render r (b.data :: st0)
      ∧ ∀ es : List String, Join (d :: b :: es) = Join (Join [d, b] :: es) := by
  have hbne : b ≠ "" := fun h => hb.1 (by rw [h])
  have hsplit : splitChars '/' b.data = [b.data] := splitChars_no_sep '/' b.data hb.2.1
  by_cases hd : d = ""
  · subst hd
    have hdrop : ∀ es : List String, Join ("" :: b :: es) = Join (b :: es) := by
      intro es
      unfold Join
      simp only [List.dropWhile, decide_True, hbne, decide_False]
    have hform : ∀ es : List String, Join (b :: es)
        = render (HasPrefix b "/")
            ((es.flatMap (fun e => splitChars '/' e.data)).foldl (cleanStep (HasPrefix b "/"))
              [b.data]) := by
      intro es
      rw [Join_cons_of_ne b es hbne, hsplit]
      simp only [List.foldl_cons, List.foldl_nil]
      rw [cleanStep_plain _ [] b.data hb]
    have hN : Normal (HasPrefix b "/") [b.data] :=
      ⟨hb.1, hb.2.1, hb.2.2.1, fun h => absurd h hb.2.2.2, trivial⟩
    refine ⟨HasPrefix b "/", [], hN, ?_, ?_⟩
    · rw [hdrop, hform]; rfl
    · intro es
      rw [hdrop, hdrop [], hform [], hform es]
      simp only [List.flatMap_nil, List.foldl_nil]
      rw [Join_render_cons _ _ es hN]
  · have hform : ∀ es : List String, Join (d :: b :: es)
        = render (HasPrefix d "/")
            ((es.flatMap (fun e => splitChars '/' e.data)).foldl (cleanStep (HasPrefix d "/"))
              (b.data :: (splitChars '/' d.data).foldl (cleanStep (HasPrefix d "/")) [])) := by
      intro es
      rw [Join_cons_of_ne d (b :: es) hd, List.flatMap_cons, hsplit]
      simp only [List.cons_append, List.nil_append, List.foldl_cons]
      rw [cleanStep_plain _ _ b.data hb]
    have hNd : Normal (HasPrefix d "/")
        ((splitChars '/' d.data).foldl (cleanStep (HasPrefix d "/")) []) :=
      foldl_cleanStep_Normal _ _ [] trivial (not_mem_of_mem_splitChars '/' d.data)
    have hN : Normal (HasPrefix d "/")
        (b.data :: (splitChars '/' d.data).foldl (cleanStep (HasPrefix d "/")) []) :=
      ⟨hb.1, hb.2.1, hb.2.2.1, fun h => absurd h hb.2.2.2, hNd⟩
    refine ⟨HasPrefix d "/", _, hN, ?_, ?_⟩
    · rw [hform []]; rfl
    · intro es
      rw [hform es, hform []]
      simp only [List.flatMap_nil, List.foldl_nil]
      rw [Join_render_cons _ _ es hN]

theorem foldl_noDotDot (r : Bool) (es : List String) (st : List (List Char))
    (hes : ∀ e ∈ es, noDotDot e = true) :
    ∃ T : List (List Char), (∀ t ∈ T, plainChars t)
      ∧ (es.flatMap (fun e => splitChars '/' e.data)).foldl (cleanStep r) st = T ++ st := by
  have hnd : ∀ c ∈ es.flatMap (fun e => splitChars '/' e.data), c ≠ ['.', '.'] := by
    intro c hc
    obtain ⟨e, he, hce⟩ := List.mem_flatMap.mp hc
    have := hes e he
    simp only [noDotDot, decide_eq_true_eq] at this
    intro heq
    exact this (heq ▸ hce)
  refine ⟨_, ?_, foldl_cleanStep_push r _ st hnd⟩
  intro t ht
  have ht2 := List.mem_filter.mp (List.mem_reverse.mp ht)
  obtain ⟨e, _, hce⟩ := List.mem_flatMap.mp ht2.1
  have hk := ht2.2
  simp only [decide_eq_true_eq] at hk
  exact ⟨hk.1, not_mem_of_mem_splitChars '/' e.data t hce, hk.2, hnd t ht2.1⟩

theorem Ext_Join (r : Bool) (B : List (List Char)) (X : String) (es : List String)
    (hB : Normal r B) (hX : Ext r B X) (hes : ∀ e ∈ es, noDotDot e = true) :
    Ext r B (Join (X :: es)) := by
  obtain ⟨T, hT, rfl⟩ := hX
  obtain ⟨T2, hT2, hfold⟩ := foldl_noDotDot r es (T ++ B) hes
  refine ⟨T2 ++ T, ?_, ?_⟩
  · intro t ht
    rcases List.mem_append.mp ht with h | h
    · exact hT2 t h
    · exact hT t h
  · rw [Join_render_cons r (T ++ B) es (Normal_of_plain_append r T B hT hB), hfold,
      List.append_assoc]

theorem Tail_Join (r : Bool) (B : List (List Char)) (X : String) (es : List String)
    (last : String) (hB : Normal r B) (hX : Ext r B X)
    (hes : ∀ e ∈ es, noDotDot e = true) (hlast : plainChars last.data) :
    Tail r B last.data (Join (X :: es ++ [last])) := by
  obtain ⟨T, hT, hJ⟩ := Ext_Join r B X es hB hX hes
  refine ⟨T, hT, ?_⟩
  have hN := Normal_of_plain_append r T B hT hB
  have h1 : Join (X :: es ++ [last]) = Join (Join (X :: es) :: [last]) := by
    obtain ⟨T0, hT0, rfl⟩ := hX
    have hN0 := Normal_of_plain_append r T0 B hT0 hB
    rw [show render r (T0 ++ B) :: es ++ [last] = render r (T0 ++ B) :: (es ++ [last]) from rfl,
      Join_render_cons r _ (es ++ [last]) hN0, Join_render_cons r _ es hN0,
      Join_render_cons r _ [last]
        (foldl_cleanStep_Normal r _ _ hN0 (by
          intro c hc
          obtain ⟨e, _, hce⟩ := List.mem_flatMap.mp hc
          exact not_mem_of_mem_splitChars '/' e.data c hce)),
      List.flatMap_append, List.foldl_append]
  rw [h1, hJ, Join_render_cons r _ [last] hN]
  simp only [List.flatMap_cons, List.flatMap_nil, List.append_nil,
    splitChars_no_sep '/' last.data hlast.2.1, List.foldl_cons, List.foldl_nil]
  rw [cleanStep_plain r _ last.data hlast]
  rfl

theorem Tail_valid (r : Bool) (B : List (List Char)) (e : List Char) (p : String)
    (hB : Normal r B) (hBne : B ≠ []) (he : plainChars e) (hp : Tail r B e p) :
    liesUnder (render r B) p = true ∧ finalComponent p = String.mk e := by
  obtain ⟨T, hT, rfl⟩ := hp
  have hTe : ∀ t ∈ e :: T, plainChars t := by
    intro t ht
    rcases List.mem_cons.mp ht with rfl | h
    · exact he
    · exact hT t h
  have hN : Normal r (e :: T ++ B) := Normal_of_plain_append r (e :: T) B hTe hB
  constructor
  · unfold liesUnder HasPrefix
    rw [List.isPrefixOf_iff_prefix, render_data r _ hN (by simp), String.data_append,
      render_data r B hB hBne]
    have hrev : (e :: T ++ B).reverse = B.reverse ++ (e :: T).reverse := by
      simp
    rw [hrev, intercalate_append '/' _ _ (by simpa using hBne) (by simp)]
    refine ⟨List.intercalate ['/'] (e :: T).reverse, ?_⟩
    simp [List.append_assoc]
  · unfold finalComponent
    rw [splitChars_render r _ hN (by simp)]
    simp

theorem digitChar_mod_neutral (n : Nat) : pathNeutral (Nat.digitChar (n % 10)) := by
  have h : n % 10 < 10 := Nat.mod_lt n (by decide)
  generalize n % 10 = m at h
  unfold pathNeutral
  interval_cases m <;> decide

theorem toDigitsCore_neutral (fuel : Nat) :
    ∀ (n : Nat) (ds : List Char), (∀ c ∈ ds, pathNeutral c) →
      ∀ c ∈ Nat.toDigitsCore 10 fuel n ds, pathNeutral c := by
  induction fuel with
  | zero => intro n ds hds c hc; exact hds c hc
  | succ fuel ih =>
    intro n ds hds c hc
    have hds2 : ∀ c ∈ Nat.digitChar (n % 10) :: ds, pathNeutral c := by
      intro x hx
      rcases List.mem_cons.mp hx with rfl | h
      · exact digitChar_mod_neutral n
      · exact hds x h
    unfold Nat.toDigitsCore at hc
    simp only at hc
    split_ifs at hc
    · exact hds2 c hc
    · exact ih _ _ hds2 c hc

/-- The decimal writing of a size has no `.` and no `/`. -/
theorem toString_int_neutral (size : Int) : ∀ c ∈ (toString size).data, pathNeutral c := by
  have hnat : ∀ m : Nat, ∀ c ∈ (Nat.repr m).data, pathNeutral c := by
    intro m c hc
    exact toDigitsCore_neutral _ m [] (by simp) c hc
  intro c hc
  cases size with
  | ofNat m => exact hnat m c hc
  | negSucc m =>
    have hc2 : c ∈ ("-" ++ Nat.repr (Nat.succ m)).data := hc
    rw [String.data_append] at hc2
    rcases List.mem_append.mp hc2 with h | h
    · have : c = '-' := by simpa using h
      rw [this]; unfold pathNeutral; decide
    · exact hnat _ c h

theorem noDotDot_of_neutral (e : String) (h : ∀ c ∈ e.data, pathNeutral c) :
    noDotDot e = true := by
  have hs : '/' ∉ e.data := fun hm => (h '/' hm).2 rfl
  simp only [noDotDot, decide_eq_true_eq, splitChars_no_sep '/' e.data hs, List.mem_singleton]
  intro heq
  have : '.' ∈ e.data := by rw [← heq]; simp
  exact (h '.' this).1 rfl

theorem noDotDot_of_plain (e : String) (h : plainChars e.data) : noDotDot e = true := by
  simp only [noDotDot, decide_eq_true_eq, splitChars_no_sep '/' e.data h.2.1,
    List.mem_singleton]
  exact fun heq => h.2.2.2 heq.symm

theorem plainChars_icon (n ext : String) (hn : '/' ∉ n.data) (hext : ext ∈ iconExtensions) :
    plainChars (n ++ ext).data := by
  have hlen : 4 ≤ (n ++ ext).data.length := by
    rw [String.data_append, List.length_append]
    have : ext.data.length = 4 := by
      simp only [iconExtensions, List.mem_cons, List.mem_singleton, List.not_mem_nil,
        or_false] at hext
      rcases hext with rfl | rfl <;> rfl
    omega
  have hslash : '/' ∉ (n ++ ext).data := by
    rw [String.data_append]
    intro hm
    rcases List.mem_append.mp hm with h | h
    · exact hn h
    · simp only [iconExtensions, List.mem_cons, List.mem_singleton, List.not_mem_nil,
        or_false] at hext
      rcases hext with rfl | rfl
      · exact absurd h (by decide)
      · exact absurd h (by decide)
  refine ⟨?_, hslash, ?_, ?_⟩
  · intro h; rw [h] at hlen; simp at hlen
  · intro h; rw [h] at hlen; simp at hlen
  · intro h; rw [h] at hlen; simp at hlen

theorem firstNonEmpty_some {α : Type} (f : α → String) (l : List α) (p : String)
    (h : firstNonEmpty f l = some p) : ∃ x ∈ l, f x = p ∧ p ≠ "" := by
  induction l with
  | nil => simp [firstNonEmpty] at h
  | cons x xs ih =>
    rw [firstNonEmpty] at h
    by_cases hx : f x ≠ ""
    · rw [if_pos hx] at h
      have hp : f x = p := Option.some.inj h
      exact ⟨x, List.mem_cons_self x xs, hp, hp ▸ hx⟩
    · rw [if_neg hx] at h
      obtain ⟨y, hy, hrest⟩ := ih h
      exact ⟨y, List.mem_cons_of_mem x hy, hrest⟩

theorem mem_sizeDirs (files : List FileInfo) (f : FileInfo) (h : f ∈ sizeDirs files) :
    f ∈ files := by
  unfold sizeDirs at h
  exact List.mem_reverse.mp (List.mem_filter.mp h).1

/-- A path found by the walk over the size directories is the theme directory
with plain elements on top, the last of them the icon file. -/
theorem lookupAnyIconSizeInThemeDir_tail (w : World) (dir c n : String) (r : Bool)
    (B : List (List Char)) (hB : Normal r B) (hdir : Ext r B dir) (hw : plainListings w)
    (hc : noDotDot c = true) (hn : '/' ∉ n.data)
    (hne : lookupAnyIconSizeInThemeDir w dir c n ≠ "") :
    w.Stat (lookupAnyIconSizeInThemeDir w dir c n) = StatResult.ok
      ∧ ∃ ext ∈ iconExtensions,
          Tail r B (n ++ ext).data (lookupAnyIconSizeInThemeDir w dir c n) := by
  unfold lookupAnyIconSizeInThemeDir at hne ⊢
  cases h1 : w.ReadDir dir with
  | none => simp [h1] at hne
  | some files =>
    simp only [h1] at hne ⊢
    cases h2 : firstStat w ((sizeDirs files).flatMap (fun f =>
        iconExtensions.map (fun extension =>
          Join [Join [dir, f.Name], c, n ++ extension]))) with
    | some p =>
      simp only [h2]
      obtain ⟨hmem, hstat⟩ := firstStat_some w _ p h2
      obtain ⟨f, hf, hp⟩ := List.mem_flatMap.mp hmem
      obtain ⟨ext, hext, rfl⟩ := List.mem_map.mp hp
      have hfp := hw dir files h1 f (mem_sizeDirs files f hf)
      have hX : Ext r B (Join [dir, f.Name]) :=
        Ext_Join r B dir [f.Name] hB hdir (by
          intro e he
          rw [List.mem_singleton.mp he]
          exact noDotDot_of_plain f.Name hfp)
      refine ⟨hstat, ext, hext, ?_⟩
      exact Tail_Join r B (Join [dir, f.Name]) [c] (n ++ ext) hB hX
        (by intro e he; rw [List.mem_singleton.mp he]; exact hc)
        (plainChars_icon n ext hn hext)
    | none =>
      simp only [h2] at hne ⊢
      cases h3 : w.ReadDir (Join [dir, c]) with
      | none => simp [h3] at hne
      | some files2 =>
        simp only [h3] at hne ⊢
        cases h4 : firstStat w ((sizeDirs files2).flatMap (fun f =>
            iconExtensions.map (fun extension =>
              Join [Join [Join [dir, c], f.Name], n ++ extension]))) with
        | none => simp [h4] at hne
        | some p =>
          simp only [h4]
          obtain ⟨hmem, hstat⟩ := firstStat_some w _ p h4
          obtain ⟨f, hf, hp⟩ := List.mem_flatMap.mp hmem
          obtain ⟨ext, hext, rfl⟩ := List.mem_map.mp hp
          have hfp := hw (Join [dir, c]) files2 h3 f (mem_sizeDirs files2 f hf)
          have hX1 : Ext r B (Join [dir, c]) :=
            Ext_Join r B dir [c] hB hdir
              (by intro e he; rw [List.mem_singleton.mp he]; exact hc)
          have hX2 : Ext r B (Join [Join [dir, c], f.Name]) :=
            Ext_Join r B _ [f.Name] hB hX1 (by
              intro e he
              rw [List.mem_singleton.mp he]
              exact noDotDot_of_plain f.Name hfp)
          refine ⟨hstat, ext, hext, ?_⟩
          exact Tail_Join r B _ [] (n ++ ext) hB hX2 (by simp)
            (plainChars_icon n ext hn hext)

/-- A path found by the per-theme search is the theme directory with plain
elements on top, the last of them the icon file. -/
theorem lookupIconPathInTheme_tail (w : World) (S dir n : String) (r : Bool)
    (B : List (List Char)) (hB : Normal r B) (hdir : Ext r B dir) (hw : plainListings w)
    (hS : ∀ c ∈ S.data, pathNeutral c) (hn : '/' ∉ n.data)
    (hne : lookupIconPathInTheme w S dir n ≠ "") :
    w.Stat (lookupIconPathInTheme w S dir n) = StatResult.ok
      ∧ ∃ ext ∈ iconExtensions, Tail r B (n ++ ext).data (lookupIconPathInTheme w S dir n) := by
  have hS1 : noDotDot S = true := noDotDot_of_neutral S hS
  have hS2 : noDotDot (S ++ "x" ++ S) = true := by
    apply noDotDot_of_neutral
    intro c hc
    simp only [String.data_append, List.mem_append] at hc
    rcases hc with (h | h) | h
    · exact hS c h
    · have : c = 'x' := by simpa using h
      rw [this]; unfold pathNeutral; decide
    · exact hS c h
  unfold lookupIconPathInTheme at hne ⊢
  by_cases h0 : w.Stat dir = StatResult.notExist
  · simp [h0] at hne
  · simp only [h0, if_false] at hne ⊢
    cases h1 : firstStat w (iconExtensions.flatMap (fun extension =>
        [ Join [dir, S, "apps", n ++ extension],
          Join [dir, S ++ "x" ++ S, "apps", n ++ extension],
          Join [dir, "apps", S, n ++ extension],
          Join [dir, "apps", S ++ "x" ++ S, n ++ extension],
          Join [dir, "scalable", "apps", n ++ extension],
          Join [dir, "apps", "scalable", n ++ extension] ])) with
    | some p =>
      simp only [h1]
      obtain ⟨hmem, hstat⟩ := firstStat_some w _ p h1
      obtain ⟨ext, hext, hp⟩ := List.mem_flatMap.mp hmem
      refine ⟨hstat, ext, hext, ?_⟩
      have hpl := plainChars_icon n ext hn hext
      have htwo : ∀ a b : String, noDotDot a = true → noDotDot b = true →
          Tail r B (n ++ ext).data (Join [dir, a, b, n ++ ext]) := by
        intro a b ha hb
        exact Tail_Join r B dir [a, b] (n ++ ext) hB hdir (by
          intro e he
          simp only [List.mem_cons, List.mem_singleton, List.not_mem_nil, or_false] at he
          rcases he with rfl | rfl
          · exact ha
          · exact hb) hpl
      simp only [List.mem_cons, List.mem_singleton, List.not_mem_nil, or_false] at hp
      rcases hp with rfl | rfl | rfl | rfl | rfl | rfl
      · exact htwo S "apps" hS1 (by decide)
      · exact htwo (S ++ "x" ++ S) "apps" hS2 (by decide)
      · exact htwo "apps" S (by decide) hS1
      · exact htwo "apps" (S ++ "x" ++ S) (by decide) hS2
      · exact htwo "scalable" "apps" (by decide) (by decide)
      · exact htwo "apps" "scalable" (by decide) (by decide)
    | none =>
      simp only [h1] at hne ⊢
      cases h2 : firstNonEmpty (fun joiner => lookupAnyIconSizeInThemeDir w dir joiner n)
          subIconDirs with
      | none => simp [h2] at hne
      | some p =>
        simp only [h2]
        obtain ⟨c, hc, hp, hpne⟩ := firstNonEmpty_some _ _ p h2
        have hcd : noDotDot c = true := by
          have hall : ∀ x ∈ subIconDirs, noDotDot x = true := by decide
          exact hall c hc
        rw [← hp] at hpne ⊢
        exact lookupAnyIconSizeInThemeDir_tail w dir c n r B hB hdir hw hcd hn hpne

/-- A path found under the theme `<d>/icons/<theme>` of a data directory. -/
theorem lookupIconPathInTheme_valid (w : World) (S d theme n : String) (dirs : List String)
    (hd : d ∈ dirs) (hw : plainListings w) (htheme : noDotDot theme = true)
    (hS : ∀ c ∈ S.data, pathNeutral c) (hn : '/' ∉ n.data)
    (hne : lookupIconPathInTheme w S (Join [d, "icons", theme]) n ≠ "") :
    validIconPath w n dirs (lookupIconPathInTheme w S (Join [d, "icons", theme]) n) := by
  obtain ⟨r, st0, hN, hbase, hflat⟩ := Join_base d "icons" (by unfold plainChars; decide)
  have hX0 : Ext r ("icons".data :: st0) (Join [d, "icons"]) := ⟨[], by simp, hbase⟩
  have hdir : Ext r ("icons".data :: st0) (Join [d, "icons", theme]) := by
    rw [hflat [theme]]
    exact Ext_Join r _ _ [theme] hN hX0
      (by intro e he; rw [List.mem_singleton.mp he]; exact htheme)
  obtain ⟨hstat, ext, hext, htail⟩ :=
    lookupIconPathInTheme_tail w S _ n r _ hN hdir hw hS hn hne
  obtain ⟨hunder, hfinal⟩ := Tail_valid r _ _ _ hN (by simp)
    (plainChars_icon n ext hn hext) htail
  refine ⟨hstat, ⟨d, hd, Or.inl (hbase ▸ hunder)⟩, ?_⟩
  simp only [iconExtensions, List.mem_cons, List.mem_singleton, List.not_mem_nil,
    or_false] at hext
  rcases hext with rfl | rfl
  · exact Or.inl hfinal
  · exact Or.inr hfinal

/-- The result of the icon resolver is a validated path: for a theme name
without a path element `..`, an icon name without `/` and listings of plain
names, every non-empty result exists, lies under `<d>/icons/` or
`<d>/pixmaps/` of a data directory `d`, and has the final component
`<iconName>.png` or `<iconName>.svg`. -/
theorem fdoLookupIconPath_validIconPath (w : World) (theme : String) (size : Int)
    (iconName : String) (hw : plainListings w) (htheme : noDotDot theme = true)
    (hicon : '/' ∉ iconName.data)
    (hne : fdoLookupIconPath w theme size iconName ≠ "") :
    validIconPath w iconName (fdoLookupXdgDataDirs w)
      (fdoLookupIconPath w theme size iconName) := by
  have hS := toString_int_neutral size
  unfold fdoLookupIconPath at hne ⊢
  simp only at hne ⊢
  cases h1 : firstNonEmpty (fun dataDir =>
      lookupIconPathInTheme w (toString size) (Join [dataDir, "icons", theme]) iconName)
      (fdoLookupXdgDataDirs w) with
  | some p =>
    simp only [h1]
    obtain ⟨d, hd, hp, hpne⟩ := firstNonEmpty_some _ _ p h1
    rw [← hp] at hpne ⊢
    exact lookupIconPathInTheme_valid w _ d theme iconName _ hd hw htheme hS hicon hpne
  | none =>
    simp only [h1] at hne ⊢
    cases h2 : firstNonEmpty (fun dataDir =>
        lookupIconPathInTheme w (toString size) (Join [dataDir, "icons", "hicolor"]) iconName)
        (fdoLookupXdgDataDirs w) with
    | some p =>
      simp only [h2]
      obtain ⟨d, hd, hp, hpne⟩ := firstNonEmpty_some _ _ p h2
      rw [← hp] at hpne ⊢
      exact lookupIconPathInTheme_valid w _ d "hicolor" iconName _ hd hw (by decide) hS hicon
        hpne
    | none =>
      simp only [h2] at hne ⊢
      cases h3 : firstStat w ((fdoLookupXdgDataDirs w).flatMap (fun dataDir =>
          iconExtensions.map (fun extension =>
            Join [dataDir, "pixmaps", iconName ++ extension]))) with
      | some p =>
        simp only [h3]
        obtain ⟨hmem, hstat⟩ := firstStat_some w _ p h3
        obtain ⟨d, hd, hp⟩ := List.mem_flatMap.mp hmem
        obtain ⟨ext, hext, rfl⟩ := List.mem_map.mp hp
        obtain ⟨r, st0, hN, hbase, hflat⟩ :=
          Join_base d "pixmaps" (by unfold plainChars; decide)
        have hX0 : Ext r ("pixmaps".data :: st0) (Join [d, "pixmaps"]) := ⟨[], by simp, hbase⟩
        have htail : Tail r ("pixmaps".data :: st0) (iconName ++ ext).data
            (Join [d, "pixmaps", iconName ++ ext]) := by
          rw [hflat [iconName ++ ext]]
          exact Tail_Join r _ _ [] (iconName ++ ext) hN hX0 (by simp)
            (plainChars_icon iconName ext hicon hext)
        obtain ⟨hunder, hfinal⟩ := Tail_valid r _ _ _ hN (by simp)
          (plainChars_icon iconName ext hicon hext) htail
        refine ⟨hstat, ⟨d, hd, Or.inr (hbase ▸ hunder)⟩, ?_⟩
        simp only [iconExtensions, List.mem_cons, List.mem_singleton, List.not_mem_nil,
          or_false] at hext
        rcases hext with rfl | rfl
        · exact Or.inl hfinal
        · exact Or.inr hfinal
      | none =>
        simp only [h3] at hne ⊢
        cases h4 : firstNonEmpty
            (fun dir => lookupIconPathInTheme w (toString size) dir iconName)
            ((fdoLookupXdgDataDirs w).flatMap (themeDirs w)) with
        | none => simp [h4] at hne
        | some p =>
          simp only [h4]
          obtain ⟨dir, hdir, hp, hpne⟩ := firstNonEmpty_some _ _ p h4
          obtain ⟨d, hd, hmem⟩ := List.mem_flatMap.mp hdir
          unfold themeDirs at hmem
          cases hr : w.ReadDir (Join [d, "icons"]) with
          | none => simp [hr] at hmem
          | some files =>
            simp only [hr, List.mem_map, List.mem_filter] at hmem
            obtain ⟨f, ⟨hf, _⟩, rfl⟩ := hmem
            have hfp := hw _ files hr f hf
            rw [← hp] at hpne ⊢
            exact lookupIconPathInTheme_valid w _ d f.Name iconName _ hd hw
              (noDotDot_of_plain f.Name hfp) hS hicon hpne

/-- C13. Validated result of the resolver: for a snapshot whose directory
listings hold plain names, a theme name without a path element `..` and an icon
name without `/`, every non-empty string `fdoLookupIconPath` returns is the path
of a file that exists, lies under `<d>/icons/` or `<d>/pixmaps/` of one of the
data directories `d`, and has the final component `<iconName>.png` or
`<iconName>.svg`. -/
theorem fdoLookupIconPath_validated (w : World) (theme : String) (size : Int)
    (iconName : String) (hw : plainListings w) (htheme : noDotDot theme = true)
    (hicon : '/' ∉ iconName.data)
    (hne : fdoLookupIconPath w theme size iconName ≠ "") :
    w.Stat (fdoLookupIconPath w theme size iconName) = StatResult.ok
      ∧ (∃ d ∈ fdoLookupXdgDataDirs w,
          liesUnder (Join [d, "icons"]) (fdoLookupIconPath w theme size iconName) = true
            ∨ liesUnder (Join [d, "pixmaps"]) (fdoLookupIconPath w theme size iconName) = true)
      ∧ (finalComponent (fdoLookupIconPath w theme size iconName) = iconName ++ ".png"
          ∨ finalComponent (fdoLookupIconPath w theme size iconName) = iconName ++ ".svg") :=
  fdoLookupIconPath_validIconPath w theme size iconName hw htheme hicon hne

/-- Witness of C13 in `pixmapsWorld`, whose one listing holds the plain names
`.cache`, `Other` and `index.theme`: the result for the icon `x` is
`/d2/pixmaps/x.svg`, which exists, lies under `/d2/pixmaps/` and has the final
component `x.svg`. -/
theorem fdoLookupIconPath_validated_witness :
    fdoLookupIconPath pixmapsWorld "T" 16 "x" = "/d2/pixmaps/x.svg"
      ∧ pixmapsWorld.Stat (fdoLookupIconPath pixmapsWorld "T" 16 "x") = StatResult.ok
      ∧ (∃ d ∈ fdoLookupXdgDataDirs pixmapsWorld,
          liesUnder (Join [d, "icons"]) (fdoLookupIconPath pixmapsWorld "T" 16 "x") = true
            ∨ liesUnder (Join [d, "pixmaps"]) (fdoLookupIconPath pixmapsWorld "T" 16 "x") = true)
      ∧ (finalComponent (fdoLookupIconPath pixmapsWorld "T" 16 "x") = "x" ++ ".png"
          ∨ finalComponent (fdoLookupIconPath pixmapsWorld "T" 16 "x") = "x" ++ ".svg") :=
  ⟨by decide,
    fdoLookupIconPath_validated pixmapsWorld "T" 16 "x"
      (by
        intro dir files h
        simp only [pixmapsWorld] at h
        split_ifs at h
        cases h
        unfold plainChars
        decide)
      (by decide) (by decide) (by decide)⟩

/-- In `escapeWorld` the icon name `../x` makes `fdoLookupIconPath` return
`/d/x.png`: the path exists, but it lies neither under `/d/icons/` nor under
`/d/pixmaps/`, and its final component `x.png` is not the icon name followed by
an extension. -/
theorem fdoLookupIconPath_escapes_data_directories :
    fdoLookupXdgDataDirs escapeWorld = ["/d"]
      ∧ fdoLookupIconPath escapeWorld "T" 16 "../x" = "/d/x.png"
      ∧ liesUnder (Join ["/d", "icons"]) (fdoLookupIconPath escapeWorld "T" 16 "../x") = false
      ∧ liesUnder (Join ["/d", "pixmaps"]) (fdoLookupIconPath escapeWorld "T" 16 "../x") = false
      ∧ finalComponent (fdoLookupIconPath escapeWorld "T" 16 "../x") = "x.png"
      ∧ ¬ validIconPath escapeWorld "../x" (fdoLookupXdgDataDirs escapeWorld)
          (fdoLookupIconPath escapeWorld "T" 16 "../x") := by
  refine ⟨by decide, by decide, by decide, by decide, by decide, ?_⟩
  intro h
  have h3 := h.2.2
  rw [show finalComponent (fdoLookupIconPath escapeWorld "T" 16 "../x") = "x.png" by decide]
    at h3
  exact absurd h3 (by decide)

/-! ### Values that hold `=` and nil records -/

theorem exists_first_sep (c : Char) (l : List Char) (h : c ∈ l) :
    ∃ a b : List Char, l = a ++ c :: b ∧ c ∉ a
      ∧ l.dropWhile (fun x => decide (x ≠ c)) = c :: b := by
  induction l with
  | nil => simp at h
  | cons x xs ih =>
    by_cases hx : x = c
    · subst hx
      exact ⟨[], xs, rfl, by simp, by simp [List.dropWhile]⟩
    · have hmem : c ∈ xs := by
        rcases List.mem_cons.mp h with h1 | h1
        · exact absurd h1.symm hx
        · exact h1
      obtain ⟨a, b, hl, ha, hd⟩ := ih hmem
      refine ⟨x :: a, b, by rw [hl]; rfl, ?_, ?_⟩
      · intro hm
        rcases List.mem_cons.mp hm with h1 | h1
        · exact hx h1.symm
        · exact ha h1
      · have hstep : List.dropWhile (fun y => decide (y ≠ c)) (x :: xs)
            = List.dropWhile (fun y => decide (y ≠ c)) xs := by
          simp [List.dropWhile_cons, hx]
        rw [hstep]
        exact hd

/-- For a line that holds `=` and whose value holds none, the piece the parser
stores is the value of the line. -/
theorem fieldValue_eq_lineValue (line : String) (hk : '=' ∈ line.data)
    (hv : '=' ∉ (lineValue line).data) : fieldValue line = lineValue line := by
  obtain ⟨a, b, hl, ha, hd⟩ := exists_first_sep '=' line.data hk
  have hval : lineValue line = String.mk b := by
    unfold lineValue
    rw [hd]
    rfl
  rw [hval] at hv ⊢
  unfold fieldValue SplitAfter
  rw [hl, splitAfterChars_append_sep '=' a b ha, splitAfterChars_no_sep '=' b hv]
  rfl

theorem mem_of_HasPrefix_eq (l key : String) (hkey : '=' ∈ key.data)
    (h : HasPrefix l key = true) : '=' ∈ l.data :=
  (List.isPrefixOf_iff_prefix.mp h).subset hkey

/-- Last key wins, for values without `=`: for a descriptor file read to its
end, each of the fields `name`, `iconName`, `exec` is the value of the last
line with its key inside the `[Desktop Entry]` section, provided that value
holds no `=`, and the empty string when the section has no such line. -/
theorem newFdoIconData_last_key_value (w : World) (theme : String) (size : Int)
    (path : String) (lines : List String)
    (hscan : w.Scan path = ScanResult.scanned lines false) :
    ∃ d : fdoIconData, newFdoIconData w theme size path = some d
      ∧ ('=' ∉ (lastValue "Name=" lines).data → d.name = lastValue "Name=" lines)
      ∧ ('=' ∉ (lastValue "Icon=" lines).data → d.iconName = lastValue "Icon=" lines)
      ∧ ('=' ∉ (lastValue "Exec=" lines).data → d.exec = lastValue "Exec=" lines) := by
  have hkey : ∀ key : String, '=' ∈ key.data →
      '=' ∉ (lastValue key lines).data →
      lastStoredFrom key "" (sectionLines [] lines) = lastValue key lines := by
    intro key hk hv
    unfold lastValue lastKeyLine at hv ⊢
    unfold lastStoredFrom
    cases hlast : ((sectionLines [] lines).filter (fun l => HasPrefix l key)).getLast? with
    | none => rfl
    | some l =>
      rw [hlast] at hv
      have hmem := List.mem_of_getLast?_eq_some hlast
      have hpre : HasPrefix l key = true := by
        simpa using (List.mem_filter.mp hmem).2
      exact fieldValue_eq_lineValue l (mem_of_HasPrefix_eq l key hk hpre) hv
  obtain ⟨d, hd, h1, h2, h3⟩ := newFdoIconData_last_key_stored w theme size path lines hscan
  refine ⟨d, hd, ?_, ?_, ?_⟩
  · intro hv; rw [h1]; exact hkey "Name=" (by decide) hv
  · intro hv; rw [h2]; exact hkey "Icon=" (by decide) hv
  · intro hv; rw [h3]; exact hkey "Exec=" (by decide) hv

/-- C6. In `eqWorld` the descriptor `names.desktop` has the lines
`[Desktop Entry]`, `Name=A`, `Name=A=B`: the value of the last `Name=` line is
`A=B`, and `newFdoIconData` stores `A=` as the name. -/
theorem newFdoIconData_last_name_cut_at_eq :
    eqWorld.Scan "/d/applications/names.desktop"
        = ScanResult.scanned ["[Desktop Entry]", "Name=A", "Name=A=B"] false
      ∧ lastValue "Name=" ["[Desktop Entry]", "Name=A", "Name=A=B"] = "A=B"
      ∧ newFdoIconData eqWorld "T" 16 "/d/applications/names.desktop"
        = some { name := "A=", iconName := "", iconPath := "", exec := "" }
      ∧ Option.map fdoIconData.name
          (newFdoIconData eqWorld "T" 16 "/d/applications/names.desktop")
        ≠ some (lastValue "Name=" ["[Desktop Entry]", "Name=A", "Name=A=B"]) := by
  decide

/-- C14. In `eqWorld` the descriptor `icon.desktop` has the lines
`[Desktop Entry]`, `Icon=/opt/a=b.png`, and the file `/opt/a=b.png` exists: the
value of the last `Icon=` line is `/opt/a=b.png`, and `newFdoIconData` stores
the icon name `/opt/a=` and an empty icon path. -/
theorem newFdoIconData_icon_value_cut_at_eq :
    eqWorld.Scan "/d/applications/icon.desktop"
        = ScanResult.scanned ["[Desktop Entry]", "Icon=/opt/a=b.png"] false
      ∧ lastValue "Icon=" ["[Desktop Entry]", "Icon=/opt/a=b.png"] = "/opt/a=b.png"
      ∧ eqWorld.Stat "/opt/a=b.png" = StatResult.ok
      ∧ newFdoIconData eqWorld "T" 16 "/d/applications/icon.desktop"
        = some { name := "", iconName := "/opt/a=", iconPath := "", exec := "" } := by
  decide

/-- C8. In `nilRecordWorld` the window has the title `zzz` and the class `term`:
the lookup by title holds no descriptor (the metadata scan stops at the
unreadable `a.desktop` and returns its nil record), the lookup by the class name
finds `term.desktop`, and `fdoLookupApplicationWinInfo` returns the nil record
of the title lookup, not the class-name match. -/
theorem fdoLookupApplicationWinInfo_returns_nil_record :
    (fdoLookupApplication nilRecordWorld "T" 16 "zzz").isNull = true
      ∧ fdoLookupApplication nilRecordWorld "T" 16 "term"
        = IconData.fdo (some { name := "Terminal", iconName := "", iconPath := "", exec := "term" })
      ∧ fdoLookupApplicationWinInfo nilRecordWorld "T" 16
          { Title := "zzz", Class := ["term"], Command := "", IconName := "" }
        = IconData.fdo none
      ∧ fdoLookupApplicationWinInfo nilRecordWorld "T" 16
          { Title := "zzz", Class := ["term"], Command := "", IconName := "" }
        ≠ fdoLookupApplication nilRecordWorld "T" 16 "term" := by
  decide

theorem find?_eq_of_agree {α : Type} (p q : α → Bool) (l : List α)
    (h : ∀ x ∈ l, p x = q x) : l.find? p = l.find? q := by
  induction l with
  | nil => rfl
  | cons x xs ih =>
    rw [List.find?_cons, List.find?_cons, h x (List.mem_cons_self x xs),
      ih (fun y hy => h y (List.mem_cons_of_mem x hy))]

/-- When no lookup of the sequence returns a nil record, the lookup by window
returns the first result that holds a descriptor, and the nil interface value
when none does. -/
theorem fdoLookupApplicationWinInfo_first_descriptor (w : World) (theme : String)
    (size : Int) (win : Window)
    (hrec : ∀ name ∈ win.Title :: win.Class ++ [win.Command, win.IconName],
      fdoLookupApplication w theme size name ≠ IconData.fdo none) :
    fdoLookupApplicationWinInfo w theme size win
      = (((win.Title :: win.Class ++ [win.Command, win.IconName]).map
            (fdoLookupApplication w theme size)).find? (fun icon => !icon.isNull)).getD
          IconData.nil := by
  rw [fdoLookupApplicationWinInfo_first_non_nil]
  congr 1
  apply find?_eq_of_agree
  intro icon hicon
  obtain ⟨name, hname, rfl⟩ := List.mem_map.mp hicon
  have := hrec name hname
  cases h : fdoLookupApplication w theme size name with
  | nil => rfl
  | fdo data =>
    cases data with
    | none => exact absurd h this
    | some d => rfl

/-- In `unlistableWorld` the theme root `/r` exists, no direct candidate of size
`24` exists, and no size directory of `/r` is known since `/r` cannot be
listed; the category-then-size path `/r/apps/48/x.png` exists, yet
`lookupAnyIconSizeInThemeDir` returns the empty string for the category apps,
and so does the per-theme search. -/
theorem lookupAnyIconSizeInThemeDir_unlistable_root :
    unlistableWorld.Stat "/r" = StatResult.ok
      ∧ (∀ q ∈ directCandidates "/r" "24" "x", unlistableWorld.Stat q ≠ StatResult.ok)
      ∧ unlistableWorld.ReadDir "/r" = none
      ∧ ((sizeThenCategory "/r" "apps" "x" []
            ++ categoryThenSize unlistableWorld "/r" "apps" "x").find?
          (fun p => decide (unlistableWorld.Stat p = StatResult.ok))).getD ""
        = "/r/apps/48/x.png"
      ∧ lookupAnyIconSizeInThemeDir unlistableWorld "/r" "apps" "x" = ""
      ∧ lookupIconPathInTheme unlistableWorld "24" "/r" "x" = "" := by
  decide

end Fdo
